import Mathlib

/-!
Verification of the AQN1 evaluator: a shallow embedding of `src/evaluator.ts`
(TLV tree construction, selector evaluation, output rendering), together with a
model of the byte-level TLV parser `BasicTLVParser.parse`, which lives in the
external `@aokiapp/tlv` package and is therefore modelled from the
specification (section 4.1).

Bytes are modelled as `List Nat` (each element a byte value), buffers as lists,
fallible code as `Except`.  Recursion that is a `while` loop or is otherwise
not structural in the source is given explicit fuel; all theorems about
successful runs are conditioned on an `ok` result, so fuel exhaustion only
shrinks the set of inputs a theorem speaks about, never changes a result.
-/

namespace AQN1

/-- Tag class enum as strings for display (evaluator.ts `TagClassName`). -/
inductive TagClassName where
  | UNIVERSAL
  | APPLICATION
  | CONTEXT
  | PRIVATE
deriving DecidableEq, Repr

/-- TLV node representation (evaluator.ts `TLVNode`).  `length = none` models
the TypeScript `null` (indefinite length as reported by the library). -/
structure TLVNode where
  offset : Nat
  tagFirstOctet : Nat
  tagClass : TagClassName
  constructed : Bool
  tagNumber : Nat
  length : Option Nat
  indefinite : Bool
  headerBytes : List Nat
  contentBytes : List Nat
  fullBytes : List Nat
  children : List TLVNode
deriving Repr

instance : Inhabited TLVNode :=
  ⟨{ offset := 0, tagFirstOctet := 0, tagClass := .UNIVERSAL, constructed := false,
     tagNumber := 0, length := some 0, indefinite := false, headerBytes := [],
     contentBytes := [], fullBytes := [], children := [] }⟩

/-- Selector AST (index.ts `Selector`); the query-string parser is out of
scope, queries arrive as ASTs. -/
inductive Selector where
  | index (value : Int)
  | tag (value : Nat)
  | decode
deriving DecidableEq, Repr

/-- Modifier AST (index.ts `Modifier`); the TypeScript `null` is resolved to
`auto` before evaluation (`ast.modifier ?? "auto"`). -/
inductive Modifier where
  | tlv
  | tlvhex
  | int
  | count
  | utf8
  | hex
  | auto
  | type
  | pretty
deriving DecidableEq, Repr

/-- Error taxonomy: one constructor per distinct `throw new Error(...)` message
family in the source, so that theorems can talk about which failure fired. -/
inductive EvalError where
  | invalidQuerySyntax (msg : String)
  | tlvParseError (msg : String)
  | indexOutOfBounds (msg : String)
  | tagNotFound (t : Nat)
  | valueError (msg : String)
  | incompatibleOutputFormat (msg : String)
  | invalidModifier
  | outOfFuel
deriving DecidableEq, Repr

/-- Output record (`{ binary?: Uint8Array; text?: string }`). -/
structure Output where
  binary : Option (List Nat) := none
  text : Option String := none
deriving DecidableEq, Repr

/-- `true` exactly on `Except.ok` results. -/
def isOkE {α : Type} (e : Except EvalError α) : Bool :=
  match e with
  | .ok _ => true
  | .error _ => false

/-! ## The byte-level TLV parser

Modelled from the spec: `BasicTLVParser.parse` of the external `@aokiapp/tlv`
package is not part of this repository's sources; the definitions below follow
specification section 4.1 word by word (identifier octets with long-form tag
numbers, short/long/indefinite length octets, nested-depth-aware scan for the
end-of-contents marker, truncation and invalid-encoding failures). -/

/-- Result shape consumed by `parseOneTLV`: decoded tag fields, the reported
length (`none` for indefinite), the content bytes (excluding any EOC), and the
total number of bytes consumed (including the EOC when indefinite). -/
structure ParsedTag where
  tagClass : Nat
  constructed : Bool
  tagNumber : Nat
deriving DecidableEq, Repr

structure LibParseResult where
  tag : ParsedTag
  length : Option Nat
  value : List Nat
  endOffset : Nat
deriving DecidableEq, Repr

/-- Modelled from the spec: long-form tag number octets are big-endian
base-128 digits with high-bit-set continuation.  Returns the tag number and
the count of octets consumed. -/
def parseTagNumberLong : List Nat → Nat → Except String (Nat × Nat)
  | [], _ => .error "Truncated encoding: unterminated long-form tag number"
  | b :: rest, acc =>
    if b &&& 0x80 ≠ 0 then
      match parseTagNumberLong rest (acc * 128 + (b &&& 0x7f)) with
      | .ok (tn, c) => .ok (tn, c + 1)
      | .error e => .error e
    else
      .ok (acc * 128 + (b &&& 0x7f), 1)

/-- Modelled from the spec: the identifier octets.  Top two bits of the first
octet give the tag class, bit 0x20 the constructed flag, the low 5 bits the
tag number unless they are all ones (long form). -/
def parseIdentifierOctets (bytes : List Nat) : Except String (ParsedTag × Nat) :=
  match bytes with
  | [] => .error "Truncated encoding: missing identifier octet"
  | b :: rest =>
    let cls := (b >>> 6) &&& 3
    let ctd := b &&& 0x20 ≠ 0
    let low5 := b &&& 0x1f
    if low5 = 0x1f then
      match parseTagNumberLong rest 0 with
      | .ok (tn, c) => .ok (⟨cls, ctd, tn⟩, 1 + c)
      | .error e => .error e
    else
      .ok (⟨cls, ctd, low5⟩, 1)

/-- Big-endian base-256 value of a byte list. -/
def beNat (l : List Nat) : Nat :=
  l.foldl (fun a b => a * 256 + b) 0

/-- Modelled from the spec: the length octets.  High bit clear: short form.
First octet 0x80: indefinite (`none`).  Otherwise the low 7 bits count the
following big-endian length octets.  Returns the length and octets consumed. -/
def parseLengthOctets (bytes : List Nat) : Except String (Option Nat × Nat) :=
  match bytes with
  | [] => .error "Truncated encoding: missing length octet"
  | l :: rest =>
    if l &&& 0x80 = 0 then
      .ok (some l, 1)
    else if l &&& 0x7f = 0 then
      .ok (none, 1)
    else
      let k := l &&& 0x7f
      if rest.length < k then
        .error "Truncated encoding: not enough length octets"
      else
        .ok (some (beNat (rest.take k)), 1 + k)

mutual
/-- Modelled from the spec: `BasicTLVParser.parse`.  Decodes one TLV from the
head of `bytes`: identifier octets, length octets, then either `length`
content bytes (definite) or a nested-depth-aware scan to the end-of-contents
marker (indefinite; only permitted for constructed elements).  `endOffset`
includes the two EOC bytes when indefinite; `value` never does. -/
def basicParse : Nat → List Nat → Except String LibParseResult
  | 0, _ => .error "TLV Parse Error: recursion limit"
  | fuel + 1, bytes =>
    match parseIdentifierOctets bytes with
    | .error e => .error e
    | .ok (tag, idLen) =>
      match parseLengthOctets (bytes.drop idLen) with
      | .error e => .error e
      | .ok (lenOpt, lenLen) =>
        let headerLen := idLen + lenLen
        let content0 := bytes.drop headerLen
        match lenOpt with
        | some n =>
          if content0.length < n then
            .error "Truncated encoding: content bytes missing"
          else
            .ok ⟨tag, some n, content0.take n, headerLen + n⟩
        | none =>
          if tag.constructed = false then
            .error "Invalid encoding: primitive element with indefinite length"
          else
            match scanIndefinite fuel content0 with
            | .error e => .error e
            | .ok clen => .ok ⟨tag, none, content0.take clen, headerLen + clen + 2⟩

/-- Modelled from the spec: scan indefinite-length content, consuming whole
nested TLVs, until two consecutive zero octets at the current nesting level;
returns the content byte count (excluding the EOC). -/
def scanIndefinite : Nat → List Nat → Except String Nat
  | 0, _ => .error "TLV Parse Error: recursion limit"
  | fuel + 1, bytes =>
    match bytes with
    | 0 :: 0 :: _ => .ok 0
    | [] => .error "Truncated encoding: missing end-of-contents"
    | [_] => .error "Truncated encoding: missing end-of-contents"
    | _ :: _ :: _ =>
      match basicParse fuel bytes with
      | .error e => .error e
      | .ok r =>
        match scanIndefinite fuel (bytes.drop r.endOffset) with
        | .error e => .error e
        | .ok clen => .ok (r.endOffset + clen)
end

/-! ## The evaluator's TLV tree construction (evaluator.ts) -/

mutual
/-- `parseOneTLV` (evaluator.ts): parse one TLV at `pos` with boundary `endp`,
via the library parser applied to the remaining slice, then rebuild header,
content and full byte slices and recursively decode children of constructed
elements.  Note the source always stores `indefinite := false`. -/
def parseOneTLV : Nat → List Nat → Nat → Nat → Except EvalError (TLVNode × Nat)
  | 0, _, _, _ => .error .outOfFuel
  | fuel + 1, buf, pos, endp =>
    if pos ≥ endp then .error (.invalidQuerySyntax "Unexpected end of input TLV")
    else
      let remainder := (buf.take endp).drop pos
      match basicParse (remainder.length + 4) remainder with
      | .error msg => .error (.tlvParseError msg)
      | .ok res =>
        let consumed := res.endOffset
        let contentBytes := res.value
        let headerLength := consumed - contentBytes.length
        let fullBytes := (buf.drop pos).take consumed
        let headerBytes := (buf.drop pos).take headerLength
        let tagClassName : TagClassName :=
          if res.tag.tagClass = 0 then .UNIVERSAL
          else if res.tag.tagClass = 1 then .APPLICATION
          else if res.tag.tagClass = 2 then .CONTEXT
          else .PRIVATE
        let tagFirstOctet :=
          Nat.lor (Nat.lor (Nat.shiftLeft (Nat.land res.tag.tagClass 0x03) 6)
              (if res.tag.constructed then 0x20 else 0x00))
            (if res.tag.tagNumber < 31 then Nat.land res.tag.tagNumber 0x1f else 0x1f)
        match (if res.tag.constructed then
                 parseTLVStream fuel contentBytes 0 contentBytes.length
               else .ok []) with
        | .error e => .error e
        | .ok children =>
          .ok ({ offset := pos, tagFirstOctet := tagFirstOctet, tagClass := tagClassName,
                 constructed := res.tag.constructed, tagNumber := res.tag.tagNumber,
                 length := res.length, indefinite := false, headerBytes := headerBytes,
                 contentBytes := contentBytes, fullBytes := fullBytes,
                 children := children }, pos + consumed)

/-- `parseTLVStream` (evaluator.ts): parse a stream of TLVs in `[pos, endp)`. -/
def parseTLVStream : Nat → List Nat → Nat → Nat → Except EvalError (List TLVNode)
  | 0, _, _, _ => .error .outOfFuel
  | fuel + 1, buf, pos, endp =>
    if pos < endp then
      match parseOneTLV fuel buf pos endp with
      | .error e => .error e
      | .ok (node, nextPos) =>
        match parseTLVStream fuel buf nextPos endp with
        | .error e => .error e
        | .ok rest => .ok (node :: rest)
    else
      .ok []
end

/-- `parseTLVStream(buf)` with the source's default arguments; the fuel is an
upper bound on the total number of recursive calls for a buffer of this
length. -/
def parseTLVStreamTop (buf : List Nat) : Except EvalError (List TLVNode) :=
  parseTLVStream (2 * buf.length + 8) buf 0 buf.length

/-! ## Tag search and type names (evaluator.ts) -/

/-- The worklist loop inside `findFirstByTag`: pop the front node, return it on
a first-octet match, otherwise push its children (in order) on the front when
it is constructed and has children. -/
def findLoop (t : Nat) : List TLVNode → Option TLVNode
  | [] => none
  | n :: rest =>
    if n.tagFirstOctet = t then some n
    else if n.constructed = true ∧ n.children.length > 0 then
      findLoop t (n.children ++ rest)
    else
      findLoop t rest
termination_by l => (l.map sizeOf).sum
decreasing_by
  · simp only [List.map_append, List.sum_append, List.map_cons, List.sum_cons]
    have h1 : (n.children.map sizeOf).sum < sizeOf n.children := by
      induction n.children with
      | nil => simp
      | cons a l ih =>
        simp only [List.map_cons, List.sum_cons, List.cons.sizeOf_spec]
        omega
    have h2 : sizeOf n.children < sizeOf n := by
      cases n
      simp only [TLVNode.mk.sizeOf_spec]
      omega
    omega
  · simp only [List.map_cons, List.sum_cons]
    have : 0 < sizeOf n := by
      cases n
      simp only [TLVNode.mk.sizeOf_spec]
      omega
    omega

/-- `findFirstByTag` (evaluator.ts): depth-first search for the first node
whose first tag octet equals `t` in the subtree of `root`; the root itself is
not compared, the search starts with its children. -/
def findFirstByTag (root : TLVNode) (t : Nat) : Option TLVNode :=
  findLoop t root.children

/-- `UNIVERSAL_NAMES` (evaluator.ts): universal tag name mapping, keyed by
first tag octet values. -/
def UNIVERSAL_NAMES (k : Nat) : Option String :=
  if k = 0x01 then some "BOOLEAN"
  else if k = 0x02 then some "INTEGER"
  else if k = 0x03 then some "BIT STRING"
  else if k = 0x04 then some "OCTET STRING"
  else if k = 0x05 then some "NULL"
  else if k = 0x06 then some "OBJECT IDENTIFIER"
  else if k = 0x0c then some "UTF8String"
  else if k = 0x12 then some "NumericString"
  else if k = 0x13 then some "PrintableString"
  else if k = 0x14 then some "TeletexString"
  else if k = 0x15 then some "VideotexString"
  else if k = 0x16 then some "IA5String"
  else if k = 0x17 then some "UTCTime"
  else if k = 0x18 then some "GeneralizedTime"
  else if k = 0x19 then some "GraphicString"
  else if k = 0x1a then some "VisibleString"
  else if k = 0x1b then some "GeneralString"
  else if k = 0x1c then some "UniversalString"
  else if k = 0x1e then some "BMPString"
  else if k = 0x30 then some "SEQUENCE"
  else if k = 0x31 then some "SET"
  else none

/-- `typeOf` (evaluator.ts): human-readable ASN.1 type for a node. -/
def typeOf (node : TLVNode) : String :=
  match node.tagClass with
  | .UNIVERSAL =>
    match UNIVERSAL_NAMES node.tagFirstOctet with
    | some name => name
    | none => "UNIVERSAL " ++ toString node.tagNumber
  | .APPLICATION => "APPLICATION " ++ toString node.tagNumber
  | .CONTEXT => "CONTEXT " ++ toString node.tagNumber
  | .PRIVATE => "PRIVATE " ++ toString node.tagNumber

/-! ## Integer, hex and UTF-8 rendering helpers (evaluator.ts) -/

/-- Numeric value computed inside `decodeInteger` (evaluator.ts): big-endian
fold, then a two's-complement correction when the top bit of the first byte is
set. -/
def decodeIntegerVal (value : List Nat) : Int :=
  let x : Int := Int.ofNat (value.foldl (fun a b => a * 256 + b) 0)
  if value.headD 0 &&& 0x80 ≠ 0 then x - Int.ofNat (2 ^ (8 * value.length)) else x

/-- `decodeInteger` (evaluator.ts): signed INTEGER decode to decimal text;
empty content returns "0" directly. -/
def decodeInteger (value : List Nat) : String :=
  if value.length = 0 then "0" else toString (decodeIntegerVal value)

/-- One lowercase hex digit. -/
def hexDigit (n : Nat) : Char :=
  if n < 10 then Char.ofNat (48 + n) else Char.ofNat (87 + n)

/-- One byte as two lowercase hex digits (`b.toString(16).padStart(2, "0")`
for byte values). -/
def byteToHex (b : Nat) : String :=
  String.mk [hexDigit ((b / 16) % 16), hexDigit (b % 16)]

/-- `toHex` (evaluator.ts): hex string for a byte buffer. -/
def toHex (buf : List Nat) : String :=
  String.join (buf.map byteToHex)

/-- `isStringNode` (evaluator.ts): is the node a string type suitable for
`@utf8` (primitive UNIVERSAL with first octet UTF8String, IA5String,
PrintableString, VisibleString, or BMPString). -/
def isStringNode (node : TLVNode) : Bool :=
  if node.tagClass ≠ .UNIVERSAL ∨ node.constructed = true then false
  else
    node.tagFirstOctet == 0x0c || node.tagFirstOctet == 0x16 ||
    node.tagFirstOctet == 0x13 || node.tagFirstOctet == 0x1a ||
    node.tagFirstOctet == 0x1e

/-- U+FFFD REPLACEMENT CHARACTER. -/
def replacementChar : Char := Char.ofNat 0xFFFD

/-- State of the WHATWG UTF-8 decoder between bytes of a multi-byte sequence:
how many continuation bytes are still needed, the partial code point, and the
admissible range for the next byte. -/
structure Utf8State where
  needed : Nat
  codepoint : Nat
  lower : Nat
  upper : Nat
deriving DecidableEq, Repr

/-- First byte of a sequence under the WHATWG UTF-8 decoder: either a finished
character (ASCII, or U+FFFD for an invalid leading byte) or the state entering
a multi-byte sequence.  This models `new TextDecoder("utf-8")`, which is
non-fatal: it never throws, it substitutes U+FFFD. -/
def utf8Start (b : Nat) : Char ⊕ Utf8State :=
  if b ≤ 0x7f then .inl (Char.ofNat b)
  else if 0xc2 ≤ b ∧ b ≤ 0xdf then .inr ⟨1, b &&& 0x1f, 0x80, 0xbf⟩
  else if b = 0xe0 then .inr ⟨2, b &&& 0x0f, 0xa0, 0xbf⟩
  else if b = 0xed then .inr ⟨2, b &&& 0x0f, 0x80, 0x9f⟩
  else if 0xe1 ≤ b ∧ b ≤ 0xef then .inr ⟨2, b &&& 0x0f, 0x80, 0xbf⟩
  else if b = 0xf0 then .inr ⟨3, b &&& 0x07, 0x90, 0xbf⟩
  else if b = 0xf4 then .inr ⟨3, b &&& 0x07, 0x80, 0x8f⟩
  else if 0xf1 ≤ b ∧ b ≤ 0xf3 then .inr ⟨3, b &&& 0x07, 0x80, 0xbf⟩
  else .inl replacementChar

/-- The WHATWG UTF-8 decode loop (non-fatal mode): continuation bytes outside
the admissible window emit U+FFFD and are reprocessed as a sequence start; a
dangling sequence at end of input emits U+FFFD. -/
def utf8Loop : Option Utf8State → List Nat → List Char
  | none, [] => []
  | some _, [] => [replacementChar]
  | none, b :: rest =>
    (match utf8Start b with
     | .inl c => c :: utf8Loop none rest
     | .inr st => utf8Loop (some st) rest)
  | some st, b :: rest =>
    if st.lower ≤ b ∧ b ≤ st.upper then
      let cp := st.codepoint * 64 + (b &&& 0x3f)
      if st.needed = 1 then Char.ofNat cp :: utf8Loop none rest
      else utf8Loop (some ⟨st.needed - 1, cp, 0x80, 0xbf⟩) rest
    else
      replacementChar ::
        (match utf8Start b with
         | .inl c => c :: utf8Loop none rest
         | .inr st2 => utf8Loop (some st2) rest)

/-- `utf8Decoder.decode` (evaluator.ts): the module-level
`new TextDecoder("utf-8")` in non-fatal mode, a total function on byte
buffers. -/
def utf8DecoderDecode (bytes : List Nat) : String :=
  String.mk (utf8Loop none bytes)

/-- `chooseAuto` (evaluator.ts): resolve the `auto` modifier from the node. -/
def chooseAuto (node : TLVNode) : Modifier :=
  if node.tagClass = .UNIVERSAL ∧ node.constructed = false ∧ node.tagNumber = 2 then .int
  else if isStringNode node then .utf8
  else if node.constructed then .tlv
  else .hex

mutual
/-- `pretty` (evaluator.ts): pretty-print node and subtree.  The source wraps
the UTF-8 decode in a try/catch, but the non-fatal decoder never throws, so
the catch arm is unreachable and the decode is modelled directly. -/
def pretty (node : TLVNode) (indent : String) : String :=
  let head := indent ++ typeOf node ++ (if node.constructed then " (constructed)" else "") ++
    ", length=" ++ (match node.length with | some n => toString n | none => "indef")
  if node.constructed = false then
    if node.tagClass = .UNIVERSAL ∧ node.tagNumber = 2 then
      head ++ "\n" ++ indent ++ "  INTEGER: " ++ decodeInteger node.contentBytes
    else if isStringNode node then
      head ++ "\n" ++ indent ++ "  String: \"" ++ utf8DecoderDecode node.contentBytes ++ "\""
    else
      let hex := toHex node.contentBytes
      let sample := if hex.length > 64 then String.mk (hex.toList.take 64) ++ "…" else hex
      head ++ "\n" ++ indent ++ "  Hex: " ++ sample
  else
    head ++ prettyList node.children (indent ++ "  ")
termination_by sizeOf node
decreasing_by
  cases node
  simp only [TLVNode.mk.sizeOf_spec]
  omega

/-- The `for (const c of node.children)` accumulation inside `pretty`. -/
def prettyList (l : List TLVNode) (indent : String) : String :=
  match l with
  | [] => ""
  | c :: rest => "\n" ++ pretty c indent ++ prettyList rest indent
termination_by sizeOf l
decreasing_by
  · simp only [List.cons.sizeOf_spec]
    omega
  · simp only [List.cons.sizeOf_spec]
    omega
end

/-! ## Selection engine (evaluator.ts `select`) -/

/-- One step of the selector loop in `select` (evaluator.ts). -/
def applySelector (current : TLVNode) (sel : Selector) : Except EvalError TLVNode :=
  match sel with
  | .index v =>
    if current.constructed = false then
      .error (.indexOutOfBounds "Current selection is not constructed")
    else if v < 0 ∨ v ≥ (current.children.length : Int) then
      .error (.indexOutOfBounds "")
    else
      .ok (current.children.getD v.toNat default)
  | .tag t =>
    match findFirstByTag current t with
    | some found => .ok found
    | none => .error (.tagNotFound t)
  | .decode =>
    if ¬(current.tagClass = .UNIVERSAL ∧ (current.tagNumber = 4 ∨ current.tagNumber = 3)) then
      .error (.valueError "Selected element is not OCTET STRING or BIT STRING")
    else if current.tagNumber = 3 ∧ current.contentBytes.length < 1 then
      .error (.valueError "BIT STRING has no content to decode")
    else
      let inner := if current.tagNumber = 3 then current.contentBytes.drop 1
                   else current.contentBytes
      match parseTLVStreamTop inner with
      | .error _ => .error (.valueError "Failed to decode inner ASN.1 content")
      | .ok children =>
        .ok { offset := current.offset, tagFirstOctet := 0x00, tagClass := .UNIVERSAL,
              constructed := true, tagNumber := 0, length := some inner.length,
              indefinite := false, headerBytes := [], contentBytes := inner,
              fullBytes := inner, children := children }

/-- `select` (evaluator.ts): apply the selectors in order, fail-fast. -/
def select (current : TLVNode) : List Selector → Except EvalError TLVNode
  | [] => .ok current
  | sel :: rest =>
    match applySelector current sel with
    | .ok next => select next rest
    | .error e => .error e

/-! ## Rendering and the public API (evaluator.ts `parseAndEvaluate`) -/

/-- The `switch` over the resolved modifier in `parseAndEvaluate`
(evaluator.ts); `auto` reaching this point corresponds to the source's
unreachable `default` arm.  The `utf8` case models the source's try/catch
around `utf8Decoder.decode`: the non-fatal decoder is total, so the catch arm
never fires. -/
def renderWith (selected : TLVNode) (m : Modifier) : Except EvalError Output :=
  match m with
  | .tlv => .ok { binary := some selected.fullBytes }
  | .tlvhex => .ok { text := some (toHex selected.fullBytes) }
  | .hex => .ok { text := some (toHex selected.contentBytes) }
  | .int =>
    if ¬(selected.tagClass = .UNIVERSAL ∧ selected.constructed = false ∧
          selected.tagNumber = 2) then
      .error (.incompatibleOutputFormat "Selected element is not INTEGER")
    else
      .ok { text := some (decodeInteger selected.contentBytes) }
  | .count =>
    if selected.constructed = false then
      .error (.incompatibleOutputFormat "Selected element is not constructed")
    else
      .ok { text := some (toString selected.children.length) }
  | .utf8 =>
    if ¬(isStringNode selected = true) then
      .error (.valueError "Selected value is not a supported string type")
    else
      .ok { text := some (utf8DecoderDecode selected.contentBytes) }
  | .type => .ok { text := some (typeOf selected) }
  | .pretty => .ok { text := some (pretty selected "") }
  | .auto => .error .invalidModifier

/-- The synthetic root built in `parseAndEvaluate` (evaluator.ts): a
constructed, headerless pseudo-element whose children are the top-level
elements. -/
def synthRootNode (input : List Nat) (top : List TLVNode) : TLVNode :=
  { offset := 0, tagFirstOctet := 0x00, tagClass := .UNIVERSAL, constructed := true,
    tagNumber := 0, length := some input.length, indefinite := false,
    headerBytes := [], contentBytes := input, fullBytes := input, children := top }

/-- `parseAndEvaluate` (evaluator.ts), with the query already parsed to its
AST (the textual query parser is out of scope). -/
def parseAndEvaluate (input : List Nat) (selectors : List Selector)
    (modifier : Modifier) : Except EvalError Output :=
  match parseTLVStreamTop input with
  | .error e => .error e
  | .ok top =>
    match select (synthRootNode input top) selectors with
    | .error e => .error e
    | .ok selected =>
      renderWith selected (if modifier = .auto then chooseAuto selected else modifier)

/-! ## Structural well-formedness of decoded trees

`wfNodeB` records the shape facts the decoder establishes for every element it
builds: header and content lengths add up to the full length, primitive
elements have no children, the children of a constructed element tile its
content bytes exactly, and sibling offsets chain from 0 through the parent's
content.  These are proved below for everything `parseTLVStream` produces. -/

mutual
def wfNodeB (n : TLVNode) : Bool :=
  (n.headerBytes.length + n.contentBytes.length == n.fullBytes.length) &&
  (n.constructed || n.children.isEmpty) &&
  (!n.constructed || ((n.children.map TLVNode.fullBytes).flatten == n.contentBytes)) &&
  wfChainB 0 n.children
termination_by sizeOf n
decreasing_by
  cases n
  simp only [TLVNode.mk.sizeOf_spec]
  omega

def wfChainB (pos : Nat) : List TLVNode → Bool
  | [] => true
  | c :: rest =>
    (c.offset == pos) && decide (2 ≤ c.fullBytes.length) && wfNodeB c &&
    wfChainB (pos + c.fullBytes.length) rest
termination_by l => sizeOf l
decreasing_by
  · simp only [List.cons.sizeOf_spec]; omega
  · simp only [List.cons.sizeOf_spec]; omega
end

/-- Document-order (pre-order, depth-first) flattening of a forest: each node
followed by its own subtree, then its later siblings' subtrees. -/
def preorderF : List TLVNode → List TLVNode
  | [] => []
  | n :: rest => n :: (preorderF n.children ++ preorderF rest)
termination_by l => sizeOf l
decreasing_by
  · simp only [List.cons.sizeOf_spec]
    cases n
    simp only [TLVNode.mk.sizeOf_spec]
    omega
  · simp only [List.cons.sizeOf_spec]; omega

/-- Document-order flattening decorated with absolute byte positions: a node
whose parent's content starts at document position `base` has its header at
`base + offset`, and its own content starts `headerBytes.length` later. -/
def preSpans (base : Nat) : List TLVNode → List (Nat × TLVNode)
  | [] => []
  | n :: rest =>
    (base + n.offset, n) ::
      (preSpans (base + n.offset + n.headerBytes.length) n.children ++ preSpans base rest)
termination_by l => sizeOf l
decreasing_by
  · simp only [List.cons.sizeOf_spec]
    cases n
    simp only [TLVNode.mk.sizeOf_spec]
    omega
  · simp only [List.cons.sizeOf_spec]; omega

/-- Two decorated nodes occupy disjoint byte ranges. -/
def spanDisjoint (a b : Nat × TLVNode) : Prop :=
  a.1 + a.2.fullBytes.length ≤ b.1 ∨ b.1 + b.2.fullBytes.length ≤ a.1

/-- Ordering invariant of decorated document order: an earlier element never
starts at or after the end of a later one. -/
def spanOrder (a b : Nat × TLVNode) : Prop :=
  a.1 < b.1 + b.2.fullBytes.length

/-- Total `fullBytes` length of a forest. -/
def sumFull (l : List TLVNode) : Nat :=
  (l.map (fun n => n.fullBytes.length)).sum

/-! ## Claim-side (specification-worded) definitions, for comparison -/

/-- Claim side of C4: content bytes as a big-endian two's-complement integer —
the unsigned big-endian value, minus `2 ^ (8 · byteLength)` when the most
significant bit of the first byte is set; empty content yields 0. -/
def specTwosComplement (l : List Nat) : Int :=
  if l = [] then 0
  else if 128 ≤ l.headD 0 then (beNat l : Int) - (2 : Int) ^ (8 * l.length)
  else (beNat l : Int)

/-- Claim side of C6: the fixed UNIVERSAL name table keyed by *tag number*
(SEQUENCE = 16, SET = 17, regardless of the constructed bit). -/
def specUniversalNameByTagNumber (k : Nat) : Option String :=
  match k with
  | 1 => some "BOOLEAN"
  | 2 => some "INTEGER"
  | 3 => some "BIT STRING"
  | 4 => some "OCTET STRING"
  | 5 => some "NULL"
  | 6 => some "OBJECT IDENTIFIER"
  | 12 => some "UTF8String"
  | 18 => some "NumericString"
  | 19 => some "PrintableString"
  | 20 => some "TeletexString"
  | 21 => some "VideotexString"
  | 22 => some "IA5String"
  | 23 => some "UTCTime"
  | 24 => some "GeneralizedTime"
  | 25 => some "GraphicString"
  | 26 => some "VisibleString"
  | 27 => some "GeneralString"
  | 28 => some "UniversalString"
  | 30 => some "BMPString"
  | 16 => some "SEQUENCE"
  | 17 => some "SET"
  | _ => none

/-- Claim side of C6: `type` output as the original claim words it — UNIVERSAL
elements mapped through the table keyed by tag number, unmapped numbers as
`"UNIVERSAL <n>"`, other classes as `"<CLASS> <n>"`. -/
def specTypeOfByTagNumber (node : TLVNode) : String :=
  match node.tagClass with
  | .UNIVERSAL =>
    match specUniversalNameByTagNumber node.tagNumber with
    | some name => name
    | none => "UNIVERSAL " ++ toString node.tagNumber
  | .APPLICATION => "APPLICATION " ++ toString node.tagNumber
  | .CONTEXT => "CONTEXT " ++ toString node.tagNumber
  | .PRIVATE => "PRIVATE " ++ toString node.tagNumber

/-- Amended side of C6: the same table but keyed by the *first identifier
octet* (so SEQUENCE and SET match only as 0x30/0x31, with the constructed bit
included in the key), written as the amended claim words it. -/
def specTypeOfByFirstOctet (node : TLVNode) : String :=
  match node.tagClass with
  | .UNIVERSAL =>
    if node.tagFirstOctet = 0x01 then "BOOLEAN"
    else if node.tagFirstOctet = 0x02 then "INTEGER"
    else if node.tagFirstOctet = 0x03 then "BIT STRING"
    else if node.tagFirstOctet = 0x04 then "OCTET STRING"
    else if node.tagFirstOctet = 0x05 then "NULL"
    else if node.tagFirstOctet = 0x06 then "OBJECT IDENTIFIER"
    else if node.tagFirstOctet = 0x0c then "UTF8String"
    else if node.tagFirstOctet = 0x12 then "NumericString"
    else if node.tagFirstOctet = 0x13 then "PrintableString"
    else if node.tagFirstOctet = 0x14 then "TeletexString"
    else if node.tagFirstOctet = 0x15 then "VideotexString"
    else if node.tagFirstOctet = 0x16 then "IA5String"
    else if node.tagFirstOctet = 0x17 then "UTCTime"
    else if node.tagFirstOctet = 0x18 then "GeneralizedTime"
    else if node.tagFirstOctet = 0x19 then "GraphicString"
    else if node.tagFirstOctet = 0x1a then "VisibleString"
    else if node.tagFirstOctet = 0x1b then "GeneralString"
    else if node.tagFirstOctet = 0x1c then "UniversalString"
    else if node.tagFirstOctet = 0x1e then "BMPString"
    else if node.tagFirstOctet = 0x30 then "SEQUENCE"
    else if node.tagFirstOctet = 0x31 then "SET"
    else "UNIVERSAL " ++ toString node.tagNumber
  | .APPLICATION => "APPLICATION " ++ toString node.tagNumber
  | .CONTEXT => "CONTEXT " ++ toString node.tagNumber
  | .PRIVATE => "PRIVATE " ++ toString node.tagNumber

/-- Big-endian bytes of a natural number, no leading zero byte, empty for 0. -/
def natToBytesBE : Nat → List Nat
  | 0 => []
  | n + 1 => natToBytesBE ((n + 1) / 256) ++ [(n + 1) % 256]
decreasing_by
  exact Nat.div_lt_self (Nat.succ_pos n) (by omega)

/-- Byte length of the minimal two's-complement encoding of `-m` (`m ≥ 1`):
the least `k ≥ 1` with `m ≤ 2 ^ (8 k - 1)`. -/
def negByteLen (m : Nat) : Nat :=
  if m ≤ 128 then 1 else 1 + negByteLen ((m + 255) / 256)
decreasing_by
  simp only [not_le] at *
  omega

/-- A two's-complement big-endian encoder, the witness that every signed
integer has an INTEGER content encoding (claim side of C4). -/
def intEncode (x : Int) : List Nat :=
  if 0 ≤ x then
    let b := natToBytesBE x.toNat
    if b = [] then [0]
    else if 128 ≤ b.headD 0 then 0 :: b
    else b
  else
    let m := (-x).toNat
    let k := negByteLen m
    natToBytesBE (2 ^ (8 * k) - m)

/-- First top-level element decoded from a buffer (for concrete tests). -/
def firstTop (input : List Nat) : TLVNode :=
  match parseTLVStreamTop input with
  | .ok (n :: _) => n
  | _ => default

/-- All top-level elements decoded from a buffer (for concrete tests). -/
def topOf (input : List Nat) : List TLVNode :=
  match parseTLVStreamTop input with
  | .ok l => l
  | .error _ => []

/-- The synthetic root over a buffer's decoded top level (for concrete
tests). -/
def rootOf (input : List Nat) : TLVNode :=
  synthRootNode input (topOf input)

/-- `SEQUENCE { INTEGER 5, INTEGER 7 }`, a buffer with two matching
descendants at distinct document positions. -/
def twoIntBytes : List Nat := [0x30, 0x06, 0x02, 0x01, 0x05, 0x02, 0x01, 0x07]

/-- The first INTEGER of `twoIntBytes`, as decoded. -/
def twoIntFst : TLVNode :=
  { offset := 0, tagFirstOctet := 2, tagClass := .UNIVERSAL, constructed := false,
    tagNumber := 2, length := some 1, indefinite := false, headerBytes := [2, 1],
    contentBytes := [5], fullBytes := [2, 1, 5], children := [] }

/-- The second INTEGER of `twoIntBytes`, as decoded. -/
def twoIntSnd : TLVNode :=
  { offset := 3, tagFirstOctet := 2, tagClass := .UNIVERSAL, constructed := false,
    tagNumber := 2, length := some 1, indefinite := false, headerBytes := [2, 1],
    contentBytes := [7], fullBytes := [2, 1, 7], children := [] }

/-- The SEQUENCE of `twoIntBytes`, as decoded. -/
def twoIntSeq : TLVNode :=
  { offset := 0, tagFirstOctet := 48, tagClass := .UNIVERSAL, constructed := true,
    tagNumber := 16, length := some 6, indefinite := false, headerBytes := [48, 6],
    contentBytes := [2, 1, 5, 2, 1, 7], fullBytes := [48, 6, 2, 1, 5, 2, 1, 7],
    children := [twoIntFst, twoIntSnd] }

/-! ## Soundness of the byte-level parser model -/

theorem parseTagNumberLong_bounds :
    ∀ (l : List Nat) (acc tn c : Nat), parseTagNumberLong l acc = .ok (tn, c) →
      1 ≤ c ∧ c ≤ l.length := by
  intro l
  induction l with
  | nil => intro acc tn c h; simp [parseTagNumberLong] at h
  | cons b rest ih =>
    intro acc tn c h
    simp only [parseTagNumberLong] at h
    by_cases hb : b &&& 0x80 ≠ 0
    · rw [if_pos hb] at h
      cases hrec : parseTagNumberLong rest (acc * 128 + (b &&& 0x7f)) with
      | ok p =>
        obtain ⟨tn0, c0⟩ := p
        rw [hrec] at h
        simp only [Except.ok.injEq, Prod.mk.injEq] at h
        obtain ⟨h1, h2⟩ := h
        have hih := ih _ tn0 c0 hrec
        simp only [List.length_cons]
        omega
      | error e => rw [hrec] at h; simp at h
    · rw [if_neg hb] at h
      simp only [Except.ok.injEq, Prod.mk.injEq] at h
      obtain ⟨h1, h2⟩ := h
      simp only [List.length_cons]
      omega

theorem parseIdentifierOctets_bounds (bytes : List Nat) (tag : ParsedTag) (idLen : Nat)
    (h : parseIdentifierOctets bytes = .ok (tag, idLen)) :
    1 ≤ idLen ∧ idLen ≤ bytes.length := by
  cases bytes with
  | nil => simp [parseIdentifierOctets] at h
  | cons b rest =>
    simp only [parseIdentifierOctets] at h
    by_cases hl : b &&& 0x1f = 0x1f
    · rw [if_pos hl] at h
      cases hrec : parseTagNumberLong rest 0 with
      | ok p =>
        obtain ⟨tn0, c0⟩ := p
        rw [hrec] at h
        simp only [Except.ok.injEq, Prod.mk.injEq] at h
        obtain ⟨h1, h2⟩ := h
        have hb := parseTagNumberLong_bounds rest 0 tn0 c0 hrec
        simp only [List.length_cons]
        omega
      | error e => rw [hrec] at h; simp at h
    · rw [if_neg hl] at h
      simp only [Except.ok.injEq, Prod.mk.injEq] at h
      obtain ⟨h1, h2⟩ := h
      simp only [List.length_cons]
      omega

theorem parseLengthOctets_bounds (bytes : List Nat) (lenOpt : Option Nat) (lenLen : Nat)
    (h : parseLengthOctets bytes = .ok (lenOpt, lenLen)) :
    1 ≤ lenLen ∧ lenLen ≤ bytes.length := by
  cases bytes with
  | nil => simp [parseLengthOctets] at h
  | cons l rest =>
    simp only [parseLengthOctets] at h
    by_cases h1 : l &&& 0x80 = 0
    · rw [if_pos h1] at h
      simp only [Except.ok.injEq, Prod.mk.injEq] at h
      simp only [List.length_cons]
      omega
    · rw [if_neg h1] at h
      by_cases h2 : l &&& 0x7f = 0
      · rw [if_pos h2] at h
        simp only [Except.ok.injEq, Prod.mk.injEq] at h
        simp only [List.length_cons]
        omega
      · rw [if_neg h2] at h
        by_cases h3 : rest.length < l &&& 0x7f
        · rw [if_pos h3] at h; simp at h
        · rw [if_neg h3] at h
          simp only [Except.ok.injEq, Prod.mk.injEq] at h
          simp only [List.length_cons]
          omega

theorem basicParse_sound (fuel : Nat) :
    (∀ bytes r, basicParse fuel bytes = .ok r →
      ∃ hl, 2 ≤ hl ∧ hl + r.value.length ≤ bytes.length ∧
        r.value = (bytes.drop hl).take r.value.length ∧
        r.endOffset ≤ bytes.length ∧
        ((∃ n, r.length = some n ∧ r.value.length = n ∧ r.endOffset = hl + n) ∨
         (r.length = none ∧ r.endOffset = hl + r.value.length + 2))) ∧
    (∀ bytes c, scanIndefinite fuel bytes = .ok c → c + 2 ≤ bytes.length) := by
  induction fuel with
  | zero =>
    constructor
    · intro bytes r h; simp [basicParse] at h
    · intro bytes c h; simp [scanIndefinite] at h
  | succ fuel ih =>
    obtain ⟨ihB, ihS⟩ := ih
    constructor
    · intro bytes r h
      simp only [basicParse] at h
      cases hid : parseIdentifierOctets bytes with
      | error e => rw [hid] at h; simp at h
      | ok p =>
        obtain ⟨tag, idLen⟩ := p
        rw [hid] at h
        simp only at h
        cases hlen : parseLengthOctets (bytes.drop idLen) with
        | error e => rw [hlen] at h; simp at h
        | ok q =>
          obtain ⟨lenOpt, lenLen⟩ := q
          rw [hlen] at h
          simp only at h
          obtain ⟨hid1, hid2⟩ := parseIdentifierOctets_bounds bytes tag idLen hid
          obtain ⟨hlen1, hlen2⟩ := parseLengthOctets_bounds _ lenOpt lenLen hlen
          rw [List.length_drop] at hlen2
          cases lenOpt with
          | some n =>
            simp only at h
            by_cases htr : (bytes.drop (idLen + lenLen)).length < n
            · rw [if_pos htr] at h; simp at h
            · rw [if_neg htr] at h
              simp only [Except.ok.injEq] at h
              subst h
              rw [List.length_drop] at htr
              refine ⟨idLen + lenLen, by omega, ?_, ?_, ?_, ?_⟩
              · simp only [List.length_take, List.length_drop]
                omega
              · simp only [List.length_take, List.length_drop]
                congr 1
                omega
              · simp only [List.length_drop] at *
                omega
              · refine Or.inl ⟨n, rfl, ?_, ?_⟩
                · simp only [List.length_take, List.length_drop]
                  omega
                · simp only [List.length_take, List.length_drop]

          | none =>
            simp only at h
            by_cases hc : tag.constructed = false
            · rw [if_pos hc] at h; simp at h
            · rw [if_neg hc] at h
              cases hscan : scanIndefinite fuel (bytes.drop (idLen + lenLen)) with
              | error e => rw [hscan] at h; simp at h
              | ok clen =>
                rw [hscan] at h
                simp only [Except.ok.injEq] at h
                subst h
                have hsc := ihS _ clen hscan
                rw [List.length_drop] at hsc
                refine ⟨idLen + lenLen, by omega, ?_, ?_, ?_, ?_⟩
                · simp only [List.length_take, List.length_drop]
                  omega
                · simp only [List.length_take, List.length_drop]
                  congr 1
                  omega
                · simp only
                  omega
                · refine Or.inr ⟨rfl, ?_⟩
                  simp only [List.length_take, List.length_drop]
                  congr 1
                  omega
    · intro bytes c h
      simp only [scanIndefinite] at h
      split at h
      · simp only [Except.ok.injEq] at h
        simp only [List.length_cons]
        omega
      · simp at h
      · simp at h
      · rename_i b1 b2 rest _
        cases hbp : basicParse fuel (b1 :: b2 :: rest) with
        | error e => rw [hbp] at h; simp at h
        | ok r =>
          rw [hbp] at h
          simp only at h
          cases hsc : scanIndefinite fuel ((b1 :: b2 :: rest).drop r.endOffset) with
          | error e => rw [hsc] at h; simp at h
          | ok clen =>
            rw [hsc] at h
            simp only [Except.ok.injEq] at h
            subst h
            obtain ⟨hl, _, _, _, hend, _⟩ := ihB _ r hbp
            have hs2 := ihS _ clen hsc
            rw [List.length_drop] at hs2
            omega

/-- Soundness of the evaluator's tree construction: every node built by
`parseOneTLV`/`parseTLVStream` records its own start position, spans the bytes
it consumed, is structurally well-formed, and (when its reported length is
definite) decomposes as `headerBytes ++ contentBytes`; a parsed stream tiles
the parsed range exactly. -/
theorem parse_sound (fuel : Nat) :
    (∀ buf pos endp node nextPos, pos ≤ endp → endp ≤ buf.length →
      parseOneTLV fuel buf pos endp = .ok (node, nextPos) →
      node.offset = pos ∧ nextPos = pos + node.fullBytes.length ∧ nextPos ≤ endp ∧
      2 ≤ node.fullBytes.length ∧
      node.fullBytes = ((buf.take endp).drop pos).take node.fullBytes.length ∧
      wfNodeB node = true ∧
      (node.length.isSome → node.fullBytes = node.headerBytes ++ node.contentBytes)) ∧
    (∀ buf pos endp nodes, pos ≤ endp → endp ≤ buf.length →
      parseTLVStream fuel buf pos endp = .ok nodes →
      wfChainB pos nodes = true ∧
      (nodes.map TLVNode.fullBytes).flatten = (buf.take endp).drop pos) := by
  induction fuel with
  | zero =>
    constructor
    · intro buf pos endp node nextPos _ _ h; simp [parseOneTLV] at h
    · intro buf pos endp nodes _ _ h; simp [parseTLVStream] at h
  | succ fuel ih =>
    obtain ⟨ihOne, ihStream⟩ := ih
    constructor
    · intro buf pos endp node nextPos hpe hel h
      simp only [parseOneTLV] at h
      by_cases hlt : pos ≥ endp
      · rw [if_pos hlt] at h; simp at h
      · rw [if_neg hlt] at h
        have hremlen : ((buf.take endp).drop pos).length = endp - pos := by
          simp only [List.length_drop, List.length_take]
          omega
        cases hbp : basicParse (((buf.take endp).drop pos).length + 4) ((buf.take endp).drop pos) with
        | error m => rw [hbp] at h; simp at h
        | ok res =>
          rw [hbp] at h
          simp only at h
          obtain ⟨hl, hhl2, hhlv, hval, hend, hdisj⟩ :=
            (basicParse_sound _).1 _ res hbp
          rw [hremlen] at hend
          rw [hremlen] at hhlv
          have hvc : res.value.length ≤ res.endOffset := by
            rcases hdisj with ⟨n, _, hn, he⟩ | ⟨_, he⟩ <;> omega
          have hlc2 : 2 ≤ res.endOffset - res.value.length := by
            rcases hdisj with ⟨n, _, hn, he⟩ | ⟨_, he⟩ <;> omega
          have hdt : (buf.take endp).drop pos = (buf.drop pos).take (endp - pos) :=
            List.drop_take endp pos buf
          have hfull : (buf.drop pos).take res.endOffset =
              ((buf.take endp).drop pos).take res.endOffset := by
            rw [hdt, List.take_take, min_eq_left hend]
          have hfulllen : ((buf.drop pos).take res.endOffset).length = res.endOffset := by
            simp only [List.length_take, List.length_drop]
            omega
          have hheadlen : ((buf.drop pos).take (res.endOffset - res.value.length)).length =
              res.endOffset - res.value.length := by
            simp only [List.length_take, List.length_drop]
            omega
          have hdefsplit : (buf.drop pos).take res.endOffset =
              (buf.drop pos).take (res.endOffset - res.value.length) ++ res.value ∨
              res.length = none := by
            rcases hdisj with ⟨n, hlen, hn, he⟩ | ⟨hlen, he⟩
            · left
              have hhl : res.endOffset - res.value.length = hl := by omega
              conv_lhs => rw [show res.endOffset =
                (res.endOffset - res.value.length) + res.value.length by omega]
              rw [List.take_add]
              congr 1
              rw [hhl]
              conv_rhs => rw [hval]
              rw [hdt, List.drop_take, List.take_take,
                min_eq_left (by omega : res.value.length ≤ endp - pos - hl)]
            · right
              exact hlen
          by_cases hcon : res.tag.constructed = true
          case neg =>
            have hconf : res.tag.constructed = false := by
              revert hcon; cases res.tag.constructed <;> simp
            rw [if_neg hcon] at h
            simp only [Except.ok.injEq, Prod.mk.injEq] at h
            obtain ⟨hnode, hnext⟩ := h
            subst hnode
            subst hnext
            refine ⟨rfl, by rw [hfulllen], by omega,
              by rw [hfulllen]; omega, by rw [hfulllen, hfull], ?_, ?_⟩
            · simp only [wfNodeB, Bool.and_eq_true, beq_iff_eq]
              refine ⟨⟨⟨?_, by simp⟩, by simp [hconf]⟩, by simp [wfChainB]⟩
              simp only [hheadlen, hfulllen]
              omega
            · intro hdef
              rcases hdefsplit with hgood | hnone
              · exact hgood
              · rw [hnone] at hdef
                simp at hdef
          case pos =>
            rw [if_pos hcon] at h
            cases hstr : parseTLVStream fuel res.value 0 res.value.length with
            | error e => rw [hstr] at h; simp at h
            | ok children =>
              rw [hstr] at h
              simp only [Except.ok.injEq, Prod.mk.injEq] at h
              obtain ⟨hnode, hnext⟩ := h
              subst hnode
              subst hnext
              obtain ⟨hchain, hcov⟩ := ihStream res.value 0 res.value.length children
                (Nat.zero_le _) (Nat.le_refl _) hstr
              rw [List.take_length, List.drop_zero] at hcov
              refine ⟨rfl, by rw [hfulllen], by omega,
                by rw [hfulllen]; omega, by rw [hfulllen, hfull], ?_, ?_⟩
              · simp only [wfNodeB, Bool.and_eq_true, beq_iff_eq]
                refine ⟨⟨⟨?_, by simp [hcon]⟩, by simp [hcov]⟩, hchain⟩
                simp only [hheadlen, hfulllen]
                omega
              · intro hdef
                rcases hdefsplit with hgood | hnone
                · exact hgood
                · rw [hnone] at hdef
                  simp at hdef
    · intro buf pos endp nodes hpe hel h
      simp only [parseTLVStream] at h
      by_cases hlt : pos < endp
      · rw [if_pos hlt] at h
        cases hone : parseOneTLV fuel buf pos endp with
        | error e => rw [hone] at h; simp at h
        | ok p =>
          obtain ⟨node, nextPos⟩ := p
          rw [hone] at h
          simp only at h
          cases hrest : parseTLVStream fuel buf nextPos endp with
          | error e => rw [hrest] at h; simp at h
          | ok rest =>
            rw [hrest] at h
            simp only [Except.ok.injEq] at h
            subst h
            obtain ⟨hoff, hnext, hne, hflen, hfull, hwf, _⟩ :=
              ihOne buf pos endp node nextPos (le_of_lt hlt) hel hone
            obtain ⟨hchain, hcov⟩ := ihStream buf nextPos endp rest
              (by omega) hel hrest
            constructor
            · simp only [wfChainB, Bool.and_eq_true, beq_iff_eq, decide_eq_true_eq]
              refine ⟨⟨⟨hoff, hflen⟩, hwf⟩, ?_⟩
              rw [← hnext]
              exact hchain
            · simp only [List.map_cons, List.flatten_cons]
              rw [hcov, hfull, hnext, ← List.drop_drop]
              exact List.take_append_drop node.fullBytes.length ((buf.take endp).drop pos)
      · rw [if_neg hlt] at h
        simp only [Except.ok.injEq] at h
        subst h
        constructor
        · simp [wfChainB]
        · simp only [List.map_nil, List.flatten_nil]
          symm
          apply List.drop_eq_nil_of_le
          simp only [List.length_take]
          omega

/-! ## Structural lemmas about well-formed trees -/

theorem wfNodeB_parts (n : TLVNode) (h : wfNodeB n = true) :
    n.headerBytes.length + n.contentBytes.length = n.fullBytes.length ∧
    (n.constructed = false → n.children = []) ∧
    (n.constructed = true → (n.children.map TLVNode.fullBytes).flatten = n.contentBytes) ∧
    wfChainB 0 n.children = true := by
  simp only [wfNodeB, Bool.and_eq_true, beq_iff_eq, Bool.or_eq_true, Bool.not_eq_true'] at h
  obtain ⟨⟨⟨h1, h2⟩, h3⟩, h4⟩ := h
  refine ⟨h1, ?_, ?_, h4⟩
  · intro hc
    rcases h2 with h2 | h2
    · rw [hc] at h2; exact absurd h2 (by simp)
    · exact List.isEmpty_iff.mp h2
  · intro hc
    rcases h3 with h3 | h3
    · rw [hc] at h3; exact absurd h3 (by simp)
    · exact h3

theorem wfChainB_cons (pos : Nat) (c : TLVNode) (rest : List TLVNode) :
    wfChainB pos (c :: rest) = true ↔
      c.offset = pos ∧ 2 ≤ c.fullBytes.length ∧ wfNodeB c = true ∧
      wfChainB (pos + c.fullBytes.length) rest = true := by
  simp only [wfChainB, Bool.and_eq_true, beq_iff_eq, decide_eq_true_eq]
  tauto

theorem preorderF_append (l₁ l₂ : List TLVNode) :
    preorderF (l₁ ++ l₂) = preorderF l₁ ++ preorderF l₂ := by
  induction l₁ with
  | nil => simp [preorderF]
  | cons c rest ih =>
    simp only [List.cons_append, preorderF, ih, List.append_assoc]

theorem tlvNode_sizeOf_pos (n : TLVNode) : 1 ≤ sizeOf n := by
  cases n
  simp only [TLVNode.mk.sizeOf_spec]
  omega

theorem tlvNode_children_sizeOf_lt (n : TLVNode) : sizeOf n.children < sizeOf n := by
  cases n
  simp only [TLVNode.mk.sizeOf_spec]
  omega

theorem tlv_sumMap_lt (l : List TLVNode) : (l.map sizeOf).sum < sizeOf l := by
  induction l with
  | nil => simp
  | cons a l ih =>
    simp only [List.map_cons, List.sum_cons, List.cons.sizeOf_spec]
    omega

theorem preSpans_snd_aux :
    ∀ (k : Nat) (b : Nat) (l : List TLVNode), sizeOf l ≤ k →
      (preSpans b l).map Prod.snd = preorderF l := by
  intro k
  induction k with
  | zero =>
    intro b l h
    exfalso
    cases l with
    | nil => simp at h
    | cons c rest => simp only [List.cons.sizeOf_spec] at h; omega
  | succ k ih =>
    intro b l h
    cases l with
    | nil => simp [preSpans, preorderF]
    | cons c rest =>
      simp only [List.cons.sizeOf_spec] at h
      have hc := tlvNode_children_sizeOf_lt c
      simp only [preSpans, preorderF, List.map_cons, List.map_append]
      rw [ih (b + c.offset + c.headerBytes.length) c.children (by omega),
        ih b rest (by omega)]

theorem preSpans_snd (b : Nat) (l : List TLVNode) :
    (preSpans b l).map Prod.snd = preorderF l :=
  preSpans_snd_aux (sizeOf l) b l (Nat.le_refl _)

theorem preorder_wf_aux :
    ∀ (k : Nat) (l : List TLVNode) (pos : Nat), sizeOf l ≤ k → wfChainB pos l = true →
      ∀ p ∈ preorderF l, wfNodeB p = true ∧ 2 ≤ p.fullBytes.length := by
  intro k
  induction k with
  | zero =>
    intro l pos h
    exfalso
    cases l with
    | nil => simp at h
    | cons c rest => simp only [List.cons.sizeOf_spec] at h; omega
  | succ k ih =>
    intro l pos h hwf
    cases l with
    | nil => intro p hp; simp [preorderF] at hp
    | cons c rest =>
      intro p hp
      simp only [List.cons.sizeOf_spec] at h
      have hcs := tlvNode_children_sizeOf_lt c
      simp only [preorderF, List.mem_cons, List.mem_append] at hp
      obtain ⟨hoff, hflen, hcwf, hrest⟩ := (wfChainB_cons pos c rest).mp hwf
      rcases hp with rfl | hsub | hrestmem
      · exact ⟨hcwf, hflen⟩
      · exact ih c.children 0 (by omega) (wfNodeB_parts c hcwf).2.2.2 p hsub
      · exact ih rest (pos + c.fullBytes.length) (by omega) hrest p hrestmem

/-- Everything in the pre-order flattening of a well-formed sibling chain is a
well-formed node of full length at least 2. -/
theorem preorder_wf (l : List TLVNode) (pos : Nat) (h : wfChainB pos l = true) :
    ∀ p ∈ preorderF l, wfNodeB p = true ∧ 2 ≤ p.fullBytes.length :=
  preorder_wf_aux (sizeOf l) l pos (Nat.le_refl _) h

theorem findLoop_eq_find_aux :
    ∀ (k : Nat) (t : Nat) (l : List TLVNode), (l.map sizeOf).sum ≤ k →
      (∀ p ∈ preorderF l, wfNodeB p = true) →
      findLoop t l = (preorderF l).find? (fun n => n.tagFirstOctet == t) := by
  intro k
  induction k with
  | zero =>
    intro t l h hwf
    cases l with
    | nil => simp [findLoop, preorderF]
    | cons c rest =>
      exfalso
      simp only [List.map_cons, List.sum_cons] at h
      have := tlvNode_sizeOf_pos c
      omega
  | succ k ih =>
    intro t l h hwf
    cases l with
    | nil => simp [findLoop, preorderF]
    | cons n rest =>
      simp only [List.map_cons, List.sum_cons] at h
      have hnc := tlvNode_children_sizeOf_lt n
      have hncs := tlv_sumMap_lt n.children
      have hnwf : wfNodeB n = true := hwf n (by simp [preorderF])
      by_cases hm : n.tagFirstOctet = t
      · rw [findLoop, if_pos hm, preorderF,
          List.find?_cons_of_pos _ (by simp [hm])]
      · rw [findLoop, if_neg hm]
        have hfind : (preorderF (n :: rest)).find? (fun n => n.tagFirstOctet == t) =
            (preorderF n.children ++ preorderF rest).find? (fun n => n.tagFirstOctet == t) := by
          rw [preorderF, List.find?_cons_of_neg _ (by simp [hm])]
        by_cases hd : n.constructed = true ∧ n.children.length > 0
        · rw [if_pos hd, hfind, ← preorderF_append]
          apply ih t (n.children ++ rest)
          · simp only [List.map_append, List.sum_append]
            omega
          · intro p hp
            apply hwf
            rw [preorderF_append] at hp
            simp only [preorderF, List.mem_cons, List.mem_append]
            simp only [List.mem_append] at hp
            tauto
        · rw [if_neg hd]
          have hempty : n.children = [] := by
            rcases Decidable.not_and_iff_or_not.mp hd with hc | hc
            · exact (wfNodeB_parts n hnwf).2.1 (by revert hc; cases n.constructed <;> simp)
            · simp only [gt_iff_lt, not_lt, Nat.le_zero, List.length_eq_zero] at hc
              exact hc
          rw [hfind, hempty]
          simp only [preorderF, List.nil_append]
          apply ih t rest (by omega)
          intro p hp
          apply hwf
          simp only [preorderF, List.mem_cons, List.mem_append]
          tauto

/-- The worklist search of `findFirstByTag` computes the first match of
document order (pre-order depth-first), provided primitive nodes carry no
children (which every decoded tree satisfies). -/
theorem findLoop_eq_find (t : Nat) (l : List TLVNode)
    (hwf : ∀ p ∈ preorderF l, wfNodeB p = true) :
    findLoop t l = (preorderF l).find? (fun n => n.tagFirstOctet == t) :=
  findLoop_eq_find_aux ((l.map sizeOf).sum) t l (Nat.le_refl _) hwf

/-- `sumFull` distributes over cons. -/
theorem sumFull_cons (c : TLVNode) (rest : List TLVNode) :
    sumFull (c :: rest) = c.fullBytes.length + sumFull rest := by
  simp [sumFull]

/-- Decorated document order of a well-formed sibling chain: every element
lies inside the chain's byte range, has full length at least 2, and the list
is pairwise ordered in the sense that no earlier element starts at or after
the end of a later one. -/
theorem preSpans_bounds_aux :
    ∀ (k : Nat) (l : List TLVNode) (pos b : Nat), sizeOf l ≤ k → wfChainB pos l = true →
      (∀ q ∈ preSpans b l,
          b + pos ≤ q.1 ∧ q.1 + q.2.fullBytes.length ≤ b + pos + sumFull l ∧
          2 ≤ q.2.fullBytes.length) ∧
      (preSpans b l).Pairwise spanOrder := by
  intro k
  induction k with
  | zero =>
    intro l pos b h
    exfalso
    cases l with
    | nil => simp at h
    | cons c rest => simp only [List.cons.sizeOf_spec] at h; omega
  | succ k ih =>
    intro l pos b hsz h
    cases l with
    | nil => simp [preSpans]
    | cons c rest =>
      simp only [List.cons.sizeOf_spec] at hsz
      have hcs := tlvNode_children_sizeOf_lt c
      obtain ⟨hoff, hflen, hwf, hrest⟩ := (wfChainB_cons pos c rest).mp h
      obtain ⟨hlen, hprim, hcov, hchild⟩ := wfNodeB_parts c hwf
      have hchildsum : c.headerBytes.length + sumFull c.children ≤ c.fullBytes.length := by
        cases hc : c.constructed with
        | true =>
          have : sumFull c.children = c.contentBytes.length := by
            have hh := congrArg List.length (hcov hc)
            rw [List.length_flatten, List.map_map] at hh
            exact hh
          omega
        | false =>
          rw [hprim hc]
          simp only [sumFull, List.map_nil, List.sum_nil]
          omega
      obtain ⟨ihb1, ihp1⟩ :=
        ih c.children 0 (b + c.offset + c.headerBytes.length) (by omega) hchild
      obtain ⟨ihb2, ihp2⟩ := ih rest (pos + c.fullBytes.length) b (by omega) hrest
      have hbound : ∀ q ∈ preSpans b (c :: rest),
          b + pos ≤ q.1 ∧ q.1 + q.2.fullBytes.length ≤ b + pos + sumFull (c :: rest) ∧
          2 ≤ q.2.fullBytes.length := by
        intro q hq
        rw [sumFull_cons]
        simp only [preSpans, List.mem_cons, List.mem_append] at hq
        rcases hq with rfl | hq1 | hq2
        · simp only
          omega
        · obtain ⟨hb1, hb2, hb3⟩ := ihb1 q hq1
          refine ⟨by omega, by omega, hb3⟩
        · obtain ⟨hb1, hb2, hb3⟩ := ihb2 q hq2
          refine ⟨by omega, by omega, hb3⟩
      refine ⟨hbound, ?_⟩
      simp only [preSpans, List.pairwise_cons, List.pairwise_append]
      refine ⟨?_, ihp1, ihp2, ?_⟩
      · intro q hq
        have hmem : q ∈ preSpans b (c :: rest) := by
          simp only [preSpans, List.mem_cons, List.mem_append]
          rcases List.mem_append.mp hq with hq1 | hq1
          · exact Or.inr (Or.inl hq1)
          · exact Or.inr (Or.inr hq1)
        obtain ⟨hb1, hb2, hb3⟩ := hbound q hmem
        simp only [spanOrder]
        omega
      · intro x hx y hy
        obtain ⟨hx1, hx2, hx3⟩ := ihb1 x hx
        obtain ⟨hy1, hy2, hy3⟩ := ihb2 y hy
        simp only [spanOrder]
        omega

/-- Decorated document order of a well-formed sibling chain: every element
lies inside the chain's byte range, has full length at least 2, and the list
is pairwise ordered in the sense that no earlier element starts at or after
the end of a later one. -/
theorem preSpans_bounds (l : List TLVNode) (pos b : Nat) (h : wfChainB pos l = true) :
    (∀ q ∈ preSpans b l,
        b + pos ≤ q.1 ∧ q.1 + q.2.fullBytes.length ≤ b + pos + sumFull l ∧
        2 ≤ q.2.fullBytes.length) ∧
    (preSpans b l).Pairwise spanOrder :=
  preSpans_bounds_aux (sizeOf l) l pos b (Nat.le_refl _) h

/-- A successful `find?` splits the list into failing elements, the hit, and a
tail. -/
theorem find?_split {α : Type} (p : α → Bool) :
    ∀ (l : List α) (a : α), l.find? p = some a →
      ∃ l₁ l₂, l = l₁ ++ a :: l₂ ∧ ∀ x ∈ l₁, p x = false := by
  intro l
  induction l with
  | nil => intro a h; simp at h
  | cons b rest ih =>
    intro a h
    cases hb : p b with
    | true =>
      rw [List.find?_cons_of_pos _ hb] at h
      simp only [Option.some.injEq] at h
      subst h
      exact ⟨[], rest, rfl, by simp⟩
    | false =>
      rw [List.find?_cons_of_neg _ (by simp [hb])] at h
      obtain ⟨l₁, l₂, hsplit, hfail⟩ := ih a h
      refine ⟨b :: l₁, l₂, by rw [hsplit, List.cons_append], ?_⟩
      intro x hx
      rcases List.mem_cons.mp hx with rfl | hx'
      · exact hb
      · exact hfail x hx'

/-- In a well-formed chain, a child's bytes are the slice of the parent's
content starting at the child's recorded offset. -/
theorem chain_slice (l : List TLVNode) (pos : Nat) (content : List Nat)
    (h : wfChainB pos l = true)
    (hcov : (l.map TLVNode.fullBytes).flatten = content.drop pos) :
    ∀ c ∈ l, (content.drop c.offset).take c.fullBytes.length = c.fullBytes := by
  induction l generalizing pos with
  | nil => simp
  | cons c rest ih =>
    obtain ⟨hoff, hflen, hwf, hrest⟩ := (wfChainB_cons pos c rest).mp h
    simp only [List.map_cons, List.flatten_cons] at hcov
    intro d hd
    rcases List.mem_cons.mp hd with rfl | hd'
    · rw [hoff, ← hcov, List.take_left]
    · apply ih (pos + c.fullBytes.length) hrest ?_ d hd'
      have := congrArg (List.drop c.fullBytes.length) hcov
      rw [List.drop_left] at this
      rw [this, List.drop_drop, Nat.add_comm]

/-! ## Arithmetic lemmas for INTEGER decoding -/

theorem beNat_append_singleton (l : List Nat) (b : Nat) :
    beNat (l ++ [b]) = beNat l * 256 + b := by
  simp [beNat, List.foldl_append]

theorem beNat_cons_zero (t : List Nat) : beNat (0 :: t) = beNat t := by
  simp [beNat]

theorem natToBytesBE_eq_nil (n : Nat) (h : natToBytesBE n = []) : n = 0 := by
  cases n with
  | zero => rfl
  | succ m =>
    exfalso
    rw [natToBytesBE] at h
    exact absurd h (by simp)

theorem beNat_natToBytesBE (n : Nat) : beNat (natToBytesBE n) = n := by
  induction n using Nat.strong_induction_on with
  | _ n ih =>
    cases n with
    | zero => simp [natToBytesBE, beNat]
    | succ m =>
      rw [natToBytesBE, beNat_append_singleton,
        ih ((m + 1) / 256) (Nat.div_lt_self (Nat.succ_pos m) (by omega))]
      omega

theorem natToBytesBE_bytes_lt (n : Nat) : ∀ b ∈ natToBytesBE n, b < 256 := by
  induction n using Nat.strong_induction_on with
  | _ n ih =>
    cases n with
    | zero => simp [natToBytesBE]
    | succ m =>
      rw [natToBytesBE]
      intro b hb
      rcases List.mem_append.mp hb with hb1 | hb2
      · exact ih ((m + 1) / 256) (Nat.div_lt_self (Nat.succ_pos m) (by omega)) b hb1
      · simp only [List.mem_singleton] at hb2
        subst hb2
        omega

theorem headD_append_left (l t : List Nat) (d : Nat) (h : l ≠ []) :
    (l ++ t).headD d = l.headD d := by
  cases l with
  | nil => exact absurd rfl h
  | cons a l => rfl

theorem natToBytesBE_spec :
    ∀ (k v : Nat), 256 ^ k ≤ v → v < 256 ^ (k + 1) →
      (natToBytesBE v).length = k + 1 ∧ (natToBytesBE v).headD 0 = v / 256 ^ k := by
  intro k
  induction k with
  | zero =>
    intro v h1 h2
    simp only [pow_zero] at h1
    simp only [zero_add, pow_one] at h2
    obtain ⟨m, rfl⟩ : ∃ m, v = m + 1 := ⟨v - 1, by omega⟩
    have h0 : natToBytesBE 0 = [] := by rw [natToBytesBE]
    rw [natToBytesBE, Nat.div_eq_of_lt h2, h0]
    refine ⟨by simp, ?_⟩
    simp only [List.nil_append, List.headD_cons, pow_zero, Nat.div_one]
    exact Nat.mod_eq_of_lt h2
  | succ k ih =>
    intro v h1 h2
    have h256 : (256 : Nat) ≤ v := by
      have : (256 : Nat) ≤ 256 ^ (k + 1) := by
        calc (256 : Nat) = 256 ^ 1 := (pow_one 256).symm
        _ ≤ 256 ^ (k + 1) := Nat.pow_le_pow_right (by omega) (by omega)
      omega
    obtain ⟨m, rfl⟩ : ∃ m, v = m + 1 := ⟨v - 1, by omega⟩
    have hlb : 256 ^ k ≤ (m + 1) / 256 := by
      rw [Nat.le_div_iff_mul_le (by omega : (0:Nat) < 256)]
      calc 256 ^ k * 256 = 256 ^ (k + 1) := (pow_succ 256 k).symm
      _ ≤ m + 1 := h1
    have hub : (m + 1) / 256 < 256 ^ (k + 1) := by
      rw [Nat.div_lt_iff_lt_mul (by omega : (0:Nat) < 256)]
      calc m + 1 < 256 ^ (k + 1 + 1) := h2
      _ = 256 ^ (k + 1) * 256 := pow_succ 256 (k + 1)
    obtain ⟨ihlen, ihhead⟩ := ih ((m + 1) / 256) hlb hub
    have hne : natToBytesBE ((m + 1) / 256) ≠ [] := by
      intro hnil
      rw [hnil] at ihlen
      simp at ihlen
    rw [natToBytesBE]
    constructor
    · simp only [List.length_append, ihlen, List.length_cons, List.length_nil]
    · rw [headD_append_left _ _ _ hne, ihhead, Nat.div_div_eq_div_mul,
        show (256 : Nat) * 256 ^ k = 256 ^ (k + 1) from by rw [pow_succ]; ring]

set_option maxRecDepth 4000 in
theorem land_128_iff : ∀ h : Nat, h < 256 → ((h &&& 128 ≠ 0) ↔ 128 ≤ h) := by
  decide

theorem decodeIntegerVal_eq_spec (l : List Nat) (hb : l.headD 0 < 256) :
    decodeIntegerVal l = specTwosComplement l := by
  cases l with
  | nil => rfl
  | cons h t =>
    simp only [decodeIntegerVal, specTwosComplement, beNat, List.headD_cons,
      ne_eq, List.length_cons, reduceCtorEq, if_false]
    simp only [List.headD_cons] at hb
    by_cases hc : 128 ≤ h
    · rw [if_pos ((land_128_iff h hb).mpr hc), if_pos hc]
      simp
    · rw [if_neg (by intro habs; exact hc ((land_128_iff h hb).mp habs)),
        if_neg hc]
      rfl

theorem negByteLen_ge_one (m : Nat) : 1 ≤ negByteLen m := by
  rw [negByteLen]
  split <;> omega

theorem negByteLen_bound (m : Nat) : m ≤ 128 * 256 ^ (negByteLen m - 1) := by
  induction m using Nat.strong_induction_on with
  | _ m ih =>
    rw [negByteLen]
    by_cases h : m ≤ 128
    · rw [if_pos h]
      simpa using h
    · rw [if_neg h]
      have hrec := ih ((m + 255) / 256) (by omega)
      have hk1 := negByteLen_ge_one ((m + 255) / 256)
      have hstep : m ≤ 256 * ((m + 255) / 256) := by omega
      calc m ≤ 256 * ((m + 255) / 256) := hstep
      _ ≤ 256 * (128 * 256 ^ (negByteLen ((m + 255) / 256) - 1)) :=
          Nat.mul_le_mul_left 256 hrec
      _ = 128 * (256 ^ (negByteLen ((m + 255) / 256) - 1) * 256) := by ring
      _ = 128 * 256 ^ (negByteLen ((m + 255) / 256) - 1 + 1) := by rw [pow_succ]
      _ = 128 * 256 ^ (1 + negByteLen ((m + 255) / 256) - 1) := by
          rw [show negByteLen ((m + 255) / 256) - 1 + 1 =
            1 + negByteLen ((m + 255) / 256) - 1 from by omega]

theorem natToBytesBE_ne_nil (v : Nat) (h : 1 ≤ v) : natToBytesBE v ≠ [] := by
  intro hnil
  have := natToBytesBE_eq_nil v hnil
  omega

/-- Round trip: decoding the two's-complement encoding of any signed integer
recovers that integer (and the encoding is never empty). -/
theorem decodeIntegerVal_intEncode (x : Int) :
    decodeIntegerVal (intEncode x) = x ∧ intEncode x ≠ [] := by
  by_cases hx : 0 ≤ x
  · simp only [intEncode, if_pos hx]
    by_cases hnil : natToBytesBE x.toNat = []
    · rw [if_pos hnil]
      have hz : x = 0 := by
        have := natToBytesBE_eq_nil _ hnil
        omega
      subst hz
      constructor
      · rfl
      · simp
    · rw [if_neg hnil]
      have hbeq : beNat (natToBytesBE x.toNat) = x.toNat := beNat_natToBytesBE _
      have hhead : (natToBytesBE x.toNat).headD 0 < 256 := by
        cases hh : natToBytesBE x.toNat with
        | nil => exact absurd hh hnil
        | cons a t =>
          simp only [List.headD_cons]
          exact natToBytesBE_bytes_lt x.toNat a (by rw [hh]; simp)
      by_cases hmsb : 128 ≤ (natToBytesBE x.toNat).headD 0
      · rw [if_pos hmsb]
        constructor
        · simp only [decodeIntegerVal, List.headD_cons]
          rw [if_neg (by simp)]
          have : (0 :: natToBytesBE x.toNat).foldl (fun a b => a * 256 + b) 0 =
              beNat (natToBytesBE x.toNat) := beNat_cons_zero _
          rw [this, hbeq]
          exact Int.toNat_of_nonneg hx
        · simp
      · rw [if_neg hmsb]
        constructor
        · simp only [decodeIntegerVal]
          rw [if_neg (by
            intro hno
            exact hmsb ((land_128_iff _ hhead).mp hno))]
          rw [show (natToBytesBE x.toNat).foldl (fun a b => a * 256 + b) 0 =
            beNat (natToBytesBE x.toNat) from rfl, hbeq]
          exact Int.toNat_of_nonneg hx
        · exact hnil
  · simp only [intEncode, if_neg hx]
    have hm1 : 1 ≤ (-x).toNat := by omega
    set m := (-x).toNat with hm
    set k := negByteLen m with hk
    have hk1 : 1 ≤ k := negByteLen_ge_one m
    have hmb : m ≤ 128 * 256 ^ (k - 1) := negByteLen_bound m
    have hpow : (2 : Nat) ^ (8 * k) = 256 ^ k := by
      rw [Nat.pow_mul]
    have hpows : 256 ^ k = 256 ^ (k - 1) * 256 := by
      conv_lhs => rw [show k = (k - 1) + 1 by omega]
      rw [pow_succ]
    have hmlt : m < 2 ^ (8 * k) := by
      rw [hpow, hpows]
      omega
    have hlb : 256 ^ (k - 1) ≤ 2 ^ (8 * k) - m := by
      rw [hpow, hpows]
      omega
    have hub : 2 ^ (8 * k) - m < 256 ^ (k - 1 + 1) := by
      rw [show k - 1 + 1 = k by omega, hpow]
      omega
    obtain ⟨hlen, hhead⟩ := natToBytesBE_spec (k - 1) (2 ^ (8 * k) - m) hlb hub
    rw [show k - 1 + 1 = k by omega] at hlen
    have hheadlb : 128 ≤ (2 ^ (8 * k) - m) / 256 ^ (k - 1) := by
      rw [Nat.le_div_iff_mul_le (by positivity)]
      rw [hpow, hpows]
      omega
    have hheadub : (2 ^ (8 * k) - m) / 256 ^ (k - 1) < 256 := by
      rw [Nat.div_lt_iff_lt_mul (by positivity)]
      rw [hpow, hpows]
      omega
    have hne : natToBytesBE (2 ^ (8 * k) - m) ≠ [] :=
      natToBytesBE_ne_nil _ (by omega)
    refine ⟨?_, hne⟩
    simp only [decodeIntegerVal]
    rw [if_pos (by
      rw [hhead]
      exact (land_128_iff _ hheadub).mpr hheadlb)]
    rw [show (natToBytesBE (2 ^ (8 * k) - m)).foldl (fun a b => a * 256 + b) 0 =
      beNat (natToBytesBE (2 ^ (8 * k) - m)) from rfl]
    rw [beNat_natToBytesBE, hlen]
    have hmx : (m : Int) = -x := by
      rw [hm]
      exact Int.toNat_of_nonneg (by omega)
    show ((2 ^ (8 * k) - m : Nat) : Int) - ((2 ^ (8 * k) : Nat) : Int) = x
    rw [Nat.cast_sub (le_of_lt hmlt), hmx]
    ring

/-! ## Well-formedness through selection -/

theorem wfChainB_mem (l : List TLVNode) :
    ∀ (pos : Nat), wfChainB pos l = true →
      ∀ c ∈ l, wfNodeB c = true ∧ 2 ≤ c.fullBytes.length := by
  induction l with
  | nil => intro pos _ c hc; simp at hc
  | cons a rest ih =>
    intro pos h c hc
    obtain ⟨hoff, hflen, hwf, hrest⟩ := (wfChainB_cons pos a rest).mp h
    rcases List.mem_cons.mp hc with rfl | hc'
    · exact ⟨hwf, hflen⟩
    · exact ih _ hrest c hc'

theorem getD_mem (l : List TLVNode) (i : Nat) (d : TLVNode) (h : i < l.length) :
    l.getD i d ∈ l := by
  induction l generalizing i with
  | nil => simp at h
  | cons a rest ih =>
    cases i with
    | zero => simp [List.getD]
    | succ j =>
      simp only [List.getD_cons_succ]
      exact List.mem_cons_of_mem a (ih j (by simpa using h))

/-- The synthetic root wrapping a successfully decoded top-level stream is
well-formed. -/
theorem synthRoot_wf (input : List Nat) (top : List TLVNode)
    (h : parseTLVStreamTop input = .ok top) :
    wfNodeB (synthRootNode input top) = true := by
  obtain ⟨hchain, hcov⟩ := (parse_sound _).2 input 0 input.length top
    (Nat.zero_le _) (Nat.le_refl _) h
  rw [List.take_length, List.drop_zero] at hcov
  simp only [wfNodeB, synthRootNode, Bool.and_eq_true, beq_iff_eq]
  exact ⟨⟨⟨by simp, by simp⟩, by simp [hcov]⟩, hchain⟩

/-- Each selector step sends well-formed elements to well-formed elements. -/
theorem applySelector_wf (cur : TLVNode) (sel : Selector) (res : TLVNode)
    (hwf : wfNodeB cur = true) (h : applySelector cur sel = .ok res) :
    wfNodeB res = true := by
  cases sel with
  | index v =>
    simp only [applySelector] at h
    by_cases h1 : cur.constructed = false
    · rw [if_pos h1] at h; simp at h
    · rw [if_neg h1] at h
      by_cases h2 : v < 0 ∨ v ≥ (cur.children.length : Int)
      · rw [if_pos h2] at h; simp at h
      · rw [if_neg h2] at h
        simp only [Except.ok.injEq] at h
        subst h
        have hlt : v.toNat < cur.children.length := by omega
        exact (wfChainB_mem cur.children 0 (wfNodeB_parts cur hwf).2.2.2 _
          (getD_mem _ _ _ hlt)).1
  | tag t =>
    simp only [applySelector, findFirstByTag] at h
    cases hf : findLoop t cur.children with
    | none => rw [hf] at h; simp at h
    | some found =>
      rw [hf] at h
      simp only [Except.ok.injEq] at h
      subst h
      have hchain := (wfNodeB_parts cur hwf).2.2.2
      rw [findLoop_eq_find t cur.children
        (fun p hp => (preorder_wf cur.children 0 hchain p hp).1)] at hf
      exact (preorder_wf cur.children 0 hchain _ (List.mem_of_find?_eq_some hf)).1
  | decode =>
    simp only [applySelector] at h
    by_cases h1 : ¬(cur.tagClass = TagClassName.UNIVERSAL ∧
        (cur.tagNumber = 4 ∨ cur.tagNumber = 3))
    · rw [if_pos h1] at h; simp at h
    · rw [if_neg h1] at h
      by_cases h2 : cur.tagNumber = 3 ∧ cur.contentBytes.length < 1
      · rw [if_pos h2] at h; simp at h
      · rw [if_neg h2] at h
        cases hp : parseTLVStreamTop (if cur.tagNumber = 3 then cur.contentBytes.drop 1
            else cur.contentBytes) with
        | error e => rw [hp] at h; simp at h
        | ok children =>
          rw [hp] at h
          simp only [Except.ok.injEq] at h
          subst h
          obtain ⟨hchain, hcov⟩ := (parse_sound _).2 _ 0 _ children
            (Nat.zero_le _) (Nat.le_refl _) hp
          rw [List.take_length, List.drop_zero] at hcov
          simp only [wfNodeB, Bool.and_eq_true, beq_iff_eq]
          exact ⟨⟨⟨by simp, by simp⟩, by simp [hcov]⟩, hchain⟩

/-- `select` sends well-formed elements to well-formed elements. -/
theorem select_wf (sels : List Selector) :
    ∀ (cur res : TLVNode), wfNodeB cur = true → select cur sels = .ok res →
      wfNodeB res = true := by
  induction sels with
  | nil =>
    intro cur res hwf h
    simp only [select, Except.ok.injEq] at h
    subst h
    exact hwf
  | cons sel rest ih =>
    intro cur res hwf h
    simp only [select] at h
    cases hstep : applySelector cur sel with
    | error e => rw [hstep] at h; simp at h
    | ok next =>
      rw [hstep] at h
      exact ih next res (applySelector_wf cur sel next hwf hstep) h

/-! ## The claims -/

set_option maxHeartbeats 1600000 in
/-- C1: the claimed invariant `fullBytes = headerBytes ++ contentBytes ++ (EOC
if indefinite)` fails on indefinite-length input: for the buffer
`30 80 05 00 00 00` (indefinite-length SEQUENCE holding a NULL), the decoded
element has `fullBytes = 30 80 05 00 00 00` but `headerBytes = 30 80 05 00`
(the two EOC bytes are misattributed, shifting the header/content split),
`contentBytes = 05 00`, and `indefinite = false` even though the reported
length is the indefinite marker — so `fullBytes` equals neither
`headerBytes ++ contentBytes` nor `headerBytes ++ contentBytes ++ EOC`. -/
theorem c1_fullBytes_invariant_fails_on_indefinite :
    (parseTLVStreamTop [0x30, 0x80, 0x05, 0x00, 0x00, 0x00]).map
        (fun l => l.map (fun n =>
          (n.fullBytes, n.headerBytes, n.contentBytes, n.indefinite, n.length))) =
      .ok [([0x30, 0x80, 0x05, 0x00, 0x00, 0x00], [0x30, 0x80, 0x05, 0x00],
        [0x05, 0x00], false, none)] ∧
    ¬(([0x30, 0x80, 0x05, 0x00, 0x00, 0x00] : List Nat)
        = [0x30, 0x80, 0x05, 0x00] ++ [0x05, 0x00]) ∧
    ¬(([0x30, 0x80, 0x05, 0x00, 0x00, 0x00] : List Nat)
        = [0x30, 0x80, 0x05, 0x00] ++ ([0x05, 0x00] ++ [0x00, 0x00])) := by
  exact ⟨rfl, by decide, by decide⟩

set_option maxHeartbeats 1600000 in
/-- C2: the utf8 modifier does fail with ValueError on a non-string element
(second conjunct), but on a recognized string element whose content is invalid
UTF-8 it does NOT fail: for the IA5String `16 01 ff`, rendering with utf8
succeeds and emits U+FFFD, because the module-level `TextDecoder` is
constructed without `fatal: true` and never throws (the catch arm that would
produce the claimed ValueError is unreachable). -/
theorem c2_utf8_not_strict :
    parseAndEvaluate [0x16, 0x01, 0xFF] [Selector.index 0] .utf8
      = .ok { binary := none, text := some (String.mk [Char.ofNat 0xFFFD]) } ∧
    parseAndEvaluate [0x02, 0x01, 0x05] [Selector.index 0] .utf8
      = .error (.valueError "Selected value is not a supported string type") ∧
    (∀ n : TLVNode, isStringNode n = true →
      renderWith n .utf8 =
        .ok { binary := none, text := some (utf8DecoderDecode n.contentBytes) }) := by
  refine ⟨rfl, rfl, ?_⟩
  intro n h
  simp only [renderWith, if_neg (not_not_intro h)]

/-- C4: the int modifier fails with IncompatibleOutputFormat unless the
selected element is a primitive UNIVERSAL INTEGER (tag number 2); for such
elements it renders contentBytes as big-endian two's complement (the unsigned
big-endian value, minus `2 ^ (8·byteLength)` when the first byte's top bit is
set), yields "0" for empty content, and prints the exact arbitrary-precision
decimal value, so that rendering any element encoding a signed integer x
yields the decimal text of x. -/
theorem c4_int_modifier :
    (∀ n : TLVNode,
      ¬(n.tagClass = TagClassName.UNIVERSAL ∧ n.constructed = false ∧ n.tagNumber = 2) →
      renderWith n .int =
        .error (.incompatibleOutputFormat "Selected element is not INTEGER")) ∧
    (∀ n : TLVNode,
      n.tagClass = TagClassName.UNIVERSAL → n.constructed = false → n.tagNumber = 2 →
      renderWith n .int =
        .ok { binary := none, text := some (decodeInteger n.contentBytes) }) ∧
    (∀ l : List Nat, l.headD 0 < 256 → decodeIntegerVal l = specTwosComplement l) ∧
    decodeInteger [] = "0" ∧
    (∀ x : Int, decodeIntegerVal (intEncode x) = x ∧
      decodeInteger (intEncode x) = toString x) := by
  refine ⟨?_, ?_, decodeIntegerVal_eq_spec, rfl, ?_⟩
  · intro n hn
    simp only [renderWith, if_pos hn]
  · intro n h1 h2 h3
    have hcond : ¬¬(n.tagClass = TagClassName.UNIVERSAL ∧ n.constructed = false ∧
        n.tagNumber = 2) := not_not_intro ⟨h1, h2, h3⟩
    simp only [renderWith]
    rw [if_neg hcond]
  · intro x
    obtain ⟨hdec, hne⟩ := decodeIntegerVal_intEncode x
    refine ⟨hdec, ?_⟩
    have hlen : ¬((intEncode x).length = 0) := by
      simpa [List.length_eq_zero] using hne
    simp only [decodeInteger]
    rw [if_neg hlen, hdec]

set_option maxHeartbeats 1600000 in
theorem c4_int_modifier_witness :
    renderWith (firstTop [0x02, 0x01, 0x85]) Modifier.int
      = .ok { binary := none, text := some "-123" } ∧
    decodeIntegerVal (intEncode (-300)) = -300 := by
  constructor
  · have h := c4_int_modifier.2.1 (firstTop [0x02, 0x01, 0x85]) rfl rfl rfl
    rw [h]
    rfl
  · exact (c4_int_modifier.2.2.2.2 (-300)).1

set_option maxHeartbeats 1600000 in
/-- C5 counterexample: Decode() applied to a *constructed* UNIVERSAL OCTET
STRING (identifier octet 0x24) does not fail — the code checks only the class
and tag number, never the constructed flag — refuting "Decode() applied to a
constructed element always fails with ValueError". -/
theorem c5_decode_constructed_succeeds :
    (firstTop [0x24, 0x02, 0x05, 0x00]).constructed = true ∧
    (firstTop [0x24, 0x02, 0x05, 0x00]).tagClass = TagClassName.UNIVERSAL ∧
    (firstTop [0x24, 0x02, 0x05, 0x00]).tagNumber = 4 ∧
    isOkE (applySelector (firstTop [0x24, 0x02, 0x05, 0x00]) .decode) = true :=
  ⟨rfl, rfl, rfl, rfl⟩

/-- C5 amended: Decode() fails with ValueError exactly on the class/tag-number
test — the current element must be UNIVERSAL with tag number 3 or 4; the
constructed flag is not part of the check. -/
theorem c5_decode_class_check (cur : TLVNode)
    (h : ¬(cur.tagClass = TagClassName.UNIVERSAL ∧
      (cur.tagNumber = 4 ∨ cur.tagNumber = 3))) :
    applySelector cur .decode =
      .error (.valueError "Selected element is not OCTET STRING or BIT STRING") := by
  simp only [applySelector, if_pos h]

set_option maxHeartbeats 1600000 in
theorem c5_decode_class_check_witness :
    applySelector (firstTop [0x02, 0x01, 0x05]) .decode
      = .error (.valueError "Selected element is not OCTET STRING or BIT STRING") :=
  c5_decode_class_check (firstTop [0x02, 0x01, 0x05]) (by decide)

set_option maxHeartbeats 1600000 in
/-- C6 counterexample: the type modifier is NOT keyed by tag number — on a
constructed UNIVERSAL element with tag number 2 (identifier octet 0x22) the
code renders "UNIVERSAL 2", while the claimed tag-number-keyed table
(regardless of the constructed bit) would give "INTEGER". -/
theorem c6_type_counterexample :
    renderWith (firstTop [0x22, 0x02, 0x05, 0x00]) .type
      = .ok { binary := none, text := some "UNIVERSAL 2" } ∧
    specTypeOfByTagNumber (firstTop [0x22, 0x02, 0x05, 0x00]) = "INTEGER" ∧
    ¬(("UNIVERSAL 2" : String) = "INTEGER") :=
  ⟨rfl, rfl, by decide⟩

set_option maxHeartbeats 1600000 in
/-- C6 amended: the type modifier maps UNIVERSAL elements through the fixed
table keyed by the *first identifier octet* (so the constructed bit
participates in the key: SEQUENCE/SET match only as 0x30/0x31, the primitive
names only with the constructed bit clear), renders unmapped first octets as
`"UNIVERSAL <tagNumber>"`, and renders other classes as `"<CLASS> <n>"`. -/
theorem c6_type_by_first_octet (n : TLVNode) :
    renderWith n .type = .ok { binary := none, text := some (specTypeOfByFirstOctet n) } := by
  have hts : typeOf n = specTypeOfByFirstOctet n := by
    cases htc : n.tagClass with
    | UNIVERSAL =>
      simp only [typeOf, specTypeOfByFirstOctet, htc]
      by_cases h1 : n.tagFirstOctet = 1
      · simp [UNIVERSAL_NAMES, h1]
      by_cases h2 : n.tagFirstOctet = 2
      · simp [UNIVERSAL_NAMES, h1, h2]
      by_cases h3 : n.tagFirstOctet = 3
      · simp [UNIVERSAL_NAMES, h1, h2, h3]
      by_cases h4 : n.tagFirstOctet = 4
      · simp [UNIVERSAL_NAMES, h1, h2, h3, h4]
      by_cases h5 : n.tagFirstOctet = 5
      · simp [UNIVERSAL_NAMES, h1, h2, h3, h4, h5]
      by_cases h6 : n.tagFirstOctet = 6
      · simp [UNIVERSAL_NAMES, h1, h2, h3, h4, h5, h6]
      by_cases h7 : n.tagFirstOctet = 12
      · simp [UNIVERSAL_NAMES, h1, h2, h3, h4, h5, h6, h7]
      by_cases h8 : n.tagFirstOctet = 18
      · simp [UNIVERSAL_NAMES, h1, h2, h3, h4, h5, h6, h7, h8]
      by_cases h9 : n.tagFirstOctet = 19
      · simp [UNIVERSAL_NAMES, h1, h2, h3, h4, h5, h6, h7, h8, h9]
      by_cases h10 : n.tagFirstOctet = 20
      · simp [UNIVERSAL_NAMES, h1, h2, h3, h4, h5, h6, h7, h8, h9, h10]
      by_cases h11 : n.tagFirstOctet = 21
      · simp [UNIVERSAL_NAMES, h1, h2, h3, h4, h5, h6, h7, h8, h9, h10, h11]
      by_cases h12 : n.tagFirstOctet = 22
      · simp [UNIVERSAL_NAMES, h1, h2, h3, h4, h5, h6, h7, h8, h9, h10, h11, h12]
      by_cases h13 : n.tagFirstOctet = 23
      · simp [UNIVERSAL_NAMES, h1, h2, h3, h4, h5, h6, h7, h8, h9, h10, h11, h12, h13]
      by_cases h14 : n.tagFirstOctet = 24
      · simp [UNIVERSAL_NAMES, h1, h2, h3, h4, h5, h6, h7, h8, h9, h10, h11, h12, h13, h14]
      by_cases h15 : n.tagFirstOctet = 25
      · simp [UNIVERSAL_NAMES, h1, h2, h3, h4, h5, h6, h7, h8, h9, h10, h11, h12, h13, h14, h15]
      by_cases h16 : n.tagFirstOctet = 26
      · simp [UNIVERSAL_NAMES, h1, h2, h3, h4, h5, h6, h7, h8, h9, h10, h11, h12, h13, h14, h15, h16]
      by_cases h17 : n.tagFirstOctet = 27
      · simp [UNIVERSAL_NAMES, h1, h2, h3, h4, h5, h6, h7, h8, h9, h10, h11, h12, h13, h14, h15, h16, h17]
      by_cases h18 : n.tagFirstOctet = 28
      · simp [UNIVERSAL_NAMES, h1, h2, h3, h4, h5, h6, h7, h8, h9, h10, h11, h12, h13, h14, h15, h16, h17, h18]
      by_cases h19 : n.tagFirstOctet = 30
      · simp [UNIVERSAL_NAMES, h1, h2, h3, h4, h5, h6, h7, h8, h9, h10, h11, h12, h13, h14, h15, h16, h17, h18, h19]
      by_cases h20 : n.tagFirstOctet = 48
      · simp [UNIVERSAL_NAMES, h1, h2, h3, h4, h5, h6, h7, h8, h9, h10, h11, h12, h13, h14, h15, h16, h17, h18, h19, h20]
      by_cases h21 : n.tagFirstOctet = 49
      · simp [UNIVERSAL_NAMES, h1, h2, h3, h4, h5, h6, h7, h8, h9, h10, h11, h12, h13, h14, h15, h16, h17, h18, h19, h20, h21]
      simp [UNIVERSAL_NAMES, h1, h2, h3, h4, h5, h6, h7, h8, h9, h10, h11, h12, h13, h14, h15, h16, h17, h18, h19, h20, h21]
    | APPLICATION => simp only [typeOf, specTypeOfByFirstOctet, htc]
    | CONTEXT => simp only [typeOf, specTypeOfByFirstOctet, htc]
    | PRIVATE => simp only [typeOf, specTypeOfByFirstOctet, htc]
  simp only [renderWith, hts]

set_option maxHeartbeats 1600000 in
theorem c6_type_by_first_octet_witness :
    renderWith (firstTop [0x30, 0x03, 0x02, 0x01, 0x05]) .type
      = .ok { binary := none, text := some "SEQUENCE" } := by
  have h := c6_type_by_first_octet (firstTop [0x30, 0x03, 0x02, 0x01, 0x05])
  rw [h]
  rfl

/-- C7: the hex modifier renders a primitive element's contentBytes as
lowercase hex; on a constructed element it renders the concatenation of the
immediate children's fullBytes as lowercase hex (the code emits contentBytes
in both cases, and for every well-formed constructed element the children's
fullBytes tile contentBytes exactly). -/
theorem c7_hex_modifier (n : TLVNode) (hwf : wfNodeB n = true) :
    (n.constructed = false →
      renderWith n .hex = .ok { binary := none, text := some (toHex n.contentBytes) }) ∧
    (n.constructed = true →
      renderWith n .hex =
        .ok { binary := none,
              text := some (toHex ((n.children.map TLVNode.fullBytes).flatten)) }) := by
  constructor
  · intro _
    rfl
  · intro hc
    have hcov := (wfNodeB_parts n hwf).2.2.1 hc
    simp only [renderWith, hcov]

set_option maxHeartbeats 1600000 in
theorem c7_hex_modifier_witness :
    renderWith (firstTop twoIntBytes) .hex
      = .ok { binary := none,
              text := some (toHex
                (((firstTop twoIntBytes).children.map TLVNode.fullBytes).flatten)) } ∧
    toHex (((firstTop twoIntBytes).children.map TLVNode.fullBytes).flatten)
      = "020105020107" := by
  constructor
  · have hp : parseTLVStreamTop twoIntBytes = .ok [firstTop twoIntBytes] := rfl
    have hsound := (parse_sound _).2 twoIntBytes 0 twoIntBytes.length
      [firstTop twoIntBytes] (Nat.zero_le _) (Nat.le_refl _) hp
    have hwf := (wfChainB_mem _ 0 hsound.1 _ (List.Mem.head _)).1
    exact (c7_hex_modifier (firstTop twoIntBytes) hwf).2 rfl
  · rfl

/-- Helper: Decode() on an empty-content BIT STRING fails with ValueError. -/
theorem decode_bitstring_empty (n : TLVNode)
    (hc : n.tagClass = TagClassName.UNIVERSAL) (ht : n.tagNumber = 3)
    (hcont : n.contentBytes = []) :
    applySelector n .decode =
      .error (.valueError "BIT STRING has no content to decode") := by
  simp only [applySelector]
  rw [if_neg (not_not_intro ⟨hc, Or.inr ht⟩), if_pos ⟨ht, by rw [hcont]; simp⟩]

/-- Helper: Decode() on a BIT STRING with nonempty content strips the first
content byte and re-decodes the remainder as a fresh top-level range. -/
theorem decode_bitstring_cons (n : TLVNode) (b : Nat) (rest : List Nat)
    (hc : n.tagClass = TagClassName.UNIVERSAL) (ht : n.tagNumber = 3)
    (hcont : n.contentBytes = b :: rest) :
    applySelector n .decode =
      (match parseTLVStreamTop rest with
       | .ok children =>
         .ok { offset := n.offset, tagFirstOctet := 0x00, tagClass := .UNIVERSAL,
               constructed := true, tagNumber := 0, length := some rest.length,
               indefinite := false, headerBytes := [], contentBytes := rest,
               fullBytes := rest, children := children }
       | .error _ => .error (.valueError "Failed to decode inner ASN.1 content")) := by
  simp only [applySelector]
  rw [if_neg (not_not_intro ⟨hc, Or.inr ht⟩), if_neg (by rw [hcont]; simp),
    if_pos ht, hcont, show List.drop 1 (b :: rest) = rest from rfl]
  cases parseTLVStreamTop rest <;> rfl

/-- C8: for every primitive UNIVERSAL BIT STRING element, Decode() strips
exactly one leading content byte (the unused-bits count) before re-decoding
the remaining bytes as a fresh top-level TLV range, and Decode() on a BIT
STRING with empty content fails with ValueError. -/
theorem c8_bitstring_decode (n : TLVNode)
    (hc : n.tagClass = TagClassName.UNIVERSAL) (ht : n.tagNumber = 3)
    (_hp : n.constructed = false) :
    (n.contentBytes = [] →
      applySelector n .decode =
        .error (.valueError "BIT STRING has no content to decode")) ∧
    (∀ b rest, n.contentBytes = b :: rest →
      applySelector n .decode =
        (match parseTLVStreamTop rest with
         | .ok children =>
           .ok { offset := n.offset, tagFirstOctet := 0x00, tagClass := .UNIVERSAL,
                 constructed := true, tagNumber := 0, length := some rest.length,
                 indefinite := false, headerBytes := [], contentBytes := rest,
                 fullBytes := rest, children := children }
         | .error _ => .error (.valueError "Failed to decode inner ASN.1 content"))) :=
  ⟨fun hcont => decode_bitstring_empty n hc ht hcont,
   fun b rest hcont => decode_bitstring_cons n b rest hc ht hcont⟩

set_option maxHeartbeats 1600000 in
theorem c8_bitstring_decode_witness :
    applySelector (firstTop [0x03, 0x00]) .decode
      = .error (.valueError "BIT STRING has no content to decode") ∧
    applySelector (firstTop [0x03, 0x03, 0x00, 0x05, 0x00]) .decode
      = .ok { offset := 0, tagFirstOctet := 0, tagClass := .UNIVERSAL,
              constructed := true, tagNumber := 0, length := some 2,
              indefinite := false, headerBytes := [], contentBytes := [0x05, 0x00],
              fullBytes := [0x05, 0x00],
              children := [{ offset := 0, tagFirstOctet := 5, tagClass := .UNIVERSAL,
                             constructed := false, tagNumber := 5, length := some 0,
                             indefinite := false, headerBytes := [5, 0],
                             contentBytes := [], fullBytes := [5, 0],
                             children := [] }] } := by
  constructor
  · exact (c8_bitstring_decode (firstTop [0x03, 0x00]) rfl rfl rfl).1 rfl
  · have h := (c8_bitstring_decode (firstTop [0x03, 0x03, 0x00, 0x05, 0x00])
      rfl rfl rfl).2 0 [0x05, 0x00] rfl
    rw [h]
    rfl

/-- C10: Decode() on a primitive UNIVERSAL BIT STRING whose content is exactly
one byte (only the unused-bits count) succeeds, producing a synthetic
constructed element with an empty children sequence. -/
theorem c10_bitstring_unused_bits_only (n : TLVNode) (b : Nat)
    (hc : n.tagClass = TagClassName.UNIVERSAL) (ht : n.tagNumber = 3)
    (_hp : n.constructed = false) (hcont : n.contentBytes = [b]) :
    applySelector n .decode =
      .ok { offset := n.offset, tagFirstOctet := 0x00, tagClass := .UNIVERSAL,
            constructed := true, tagNumber := 0, length := some 0, indefinite := false,
            headerBytes := [], contentBytes := [], fullBytes := [], children := [] } := by
  rw [decode_bitstring_cons n b [] hc ht hcont]
  rfl

theorem c10_bitstring_unused_bits_only_witness :
    applySelector (firstTop [0x03, 0x01, 0x00]) .decode
      = .ok { offset := 0, tagFirstOctet := 0, tagClass := .UNIVERSAL,
              constructed := true, tagNumber := 0, length := some 0,
              indefinite := false, headerBytes := [], contentBytes := [],
              fullBytes := [], children := [] } :=
  c10_bitstring_unused_bits_only (firstTop [0x03, 0x01, 0x00]) 0 rfl rfl rfl rfl

/-- C9: a decoded stream's offsets chain through the parsed range (children are
re-parsed from the parent's content slice from position 0, so each offset is
the byte position of the child's header inside the parent's contentBytes, and
only the top-level stream — parsed with start 0 — carries offsets into the
original input); the synthetic element built by Decode() reuses the source
element's offset unchanged. -/
theorem c9_offsets_relative :
    (∀ (fuel : Nat) (buf : List Nat) (pos endp : Nat) (nodes : List TLVNode),
      pos ≤ endp → endp ≤ buf.length → parseTLVStream fuel buf pos endp = .ok nodes →
      wfChainB pos nodes = true) ∧
    (∀ (input : List Nat) (tops : List TLVNode),
      parseTLVStreamTop input = .ok tops → wfChainB 0 tops = true) ∧
    (∀ n : TLVNode, wfNodeB n = true → ∀ c ∈ n.children,
      (n.contentBytes.drop c.offset).take c.fullBytes.length = c.fullBytes) ∧
    (∀ (cur res : TLVNode), applySelector cur .decode = .ok res →
      res.offset = cur.offset) := by
  refine ⟨?_, ?_, ?_, ?_⟩
  · intro fuel buf pos endp nodes h1 h2 h
    exact ((parse_sound fuel).2 buf pos endp nodes h1 h2 h).1
  · intro input tops h
    exact ((parse_sound _).2 input 0 input.length tops (Nat.zero_le _)
      (Nat.le_refl _) h).1
  · intro n hwf c hc
    obtain ⟨hlen, hprim, hcov, hchain⟩ := wfNodeB_parts n hwf
    cases hcon : n.constructed with
    | true =>
      apply chain_slice n.children 0 n.contentBytes hchain ?_ c hc
      rw [List.drop_zero]
      exact hcov hcon
    | false =>
      rw [hprim hcon] at hc
      simp at hc
  · intro cur res h
    simp only [applySelector] at h
    by_cases h1 : ¬(cur.tagClass = TagClassName.UNIVERSAL ∧
        (cur.tagNumber = 4 ∨ cur.tagNumber = 3))
    · rw [if_pos h1] at h; simp at h
    · rw [if_neg h1] at h
      by_cases h2 : cur.tagNumber = 3 ∧ cur.contentBytes.length < 1
      · rw [if_pos h2] at h; simp at h
      · rw [if_neg h2] at h
        cases hp : parseTLVStreamTop (if cur.tagNumber = 3 then cur.contentBytes.drop 1
            else cur.contentBytes) with
        | error e => rw [hp] at h; simp at h
        | ok children =>
          rw [hp] at h
          simp only [Except.ok.injEq] at h
          subst h
          rfl

set_option maxHeartbeats 1600000 in
theorem c9_offsets_relative_witness :
    wfChainB 0 (topOf twoIntBytes) = true ∧
    ((firstTop twoIntBytes).contentBytes.drop twoIntSnd.offset).take
        twoIntSnd.fullBytes.length = twoIntSnd.fullBytes := by
  constructor
  · exact c9_offsets_relative.2.1 twoIntBytes (topOf twoIntBytes) rfl
  · have hp : parseTLVStreamTop twoIntBytes = .ok [firstTop twoIntBytes] := rfl
    have hsound := (parse_sound _).2 twoIntBytes 0 twoIntBytes.length
      [firstTop twoIntBytes] (Nat.zero_le _) (Nat.le_refl _) hp
    have hwf := (wfChainB_mem _ 0 hsound.1 _ (List.Mem.head _)).1
    apply c9_offsets_relative.2.2.1 (firstTop twoIntBytes) hwf twoIntSnd
    rw [show (firstTop twoIntBytes).children = [twoIntFst, twoIntSnd] from rfl]
    exact List.Mem.tail _ (List.Mem.head _)

/-- C3: Tag(t) searches only the descendants of the current element (the
element itself is never compared) in pre-order depth-first document order,
returns the first descendant whose first identifier octet equals t, fails with
TagNotFound when no descendant matches, and, of two non-overlapping matching
descendants at distinct document positions, returns the one at the smaller
byte offset. -/
theorem c3_tag_selector :
    (∀ (root : TLVNode) (t : Nat), wfNodeB root = true →
      findFirstByTag root t =
        (preorderF root.children).find? (fun m => m.tagFirstOctet == t)) ∧
    (∀ (root : TLVNode) (t : Nat), findFirstByTag root t = none →
      applySelector root (.tag t) = .error (.tagNotFound t)) ∧
    (∀ (root : TLVNode) (t : Nat) (found : TLVNode), findFirstByTag root t = some found →
      applySelector root (.tag t) = .ok found) ∧
    (∀ (root : TLVNode) (t b s₁ s₂ : Nat) (n₁ n₂ : TLVNode),
      wfNodeB root = true →
      (preSpans b root.children).find? (fun q => q.2.tagFirstOctet == t) = some (s₁, n₁) →
      (s₂, n₂) ∈ preSpans b root.children → n₂.tagFirstOctet = t →
      spanDisjoint (s₁, n₁) (s₂, n₂) →
      findFirstByTag root t = some n₁ ∧ s₁ < s₂) := by
  have hfind : ∀ (root : TLVNode) (t : Nat), wfNodeB root = true →
      findFirstByTag root t =
        (preorderF root.children).find? (fun m => m.tagFirstOctet == t) := by
    intro root t hwf
    exact findLoop_eq_find t root.children
      (fun p hp => (preorder_wf root.children 0 (wfNodeB_parts root hwf).2.2.2 p hp).1)
  refine ⟨hfind, ?_, ?_, ?_⟩
  · intro root t h
    simp only [applySelector, findFirstByTag] at *
    rw [h]
  · intro root t found h
    simp only [applySelector, findFirstByTag] at *
    rw [h]
  · intro root t b s₁ s₂ n₁ n₂ hwf hf hmem hmatch hdisj
    have hchain := (wfNodeB_parts root hwf).2.2.2
    obtain ⟨hbounds, hpair⟩ := preSpans_bounds root.children 0 b hchain
    have hmem1 : (s₁, n₁) ∈ preSpans b root.children := List.mem_of_find?_eq_some hf
    have hb1 := hbounds _ hmem1
    have hb2 := hbounds _ hmem
    have hmap : findFirstByTag root t = some n₁ := by
      rw [hfind root t hwf, ← preSpans_snd b root.children, List.find?_map]
      have hcomp : ((fun m : TLVNode => m.tagFirstOctet == t) ∘ Prod.snd)
          = (fun q : Nat × TLVNode => q.2.tagFirstOctet == t) := rfl
      rw [hcomp, hf]
      rfl
    refine ⟨hmap, ?_⟩
    obtain ⟨l₁, l₂, hsplit, hfail⟩ := find?_split _ _ _ hf
    rw [hsplit] at hmem hpair
    simp only [spanDisjoint] at hdisj
    rcases List.mem_append.mp hmem with hin1 | hin2
    · have := hfail _ hin1
      simp [hmatch] at this
    · rcases List.mem_cons.mp hin2 with heq | hin3
      · exfalso
        have hs : s₂ = s₁ := congrArg Prod.fst heq
        have hn : n₂ = n₁ := congrArg Prod.snd heq
        rw [hs, hn] at hdisj
        have hdisj2 : s₁ + n₁.fullBytes.length ≤ s₁ ∨
            s₁ + n₁.fullBytes.length ≤ s₁ := hdisj
        have h2f : 2 ≤ n₁.fullBytes.length := hb1.2.2
        omega
      · obtain ⟨hp1, hp2, hp3⟩ := List.pairwise_append.mp hpair
        have horder := (List.pairwise_cons.mp hp2).1 _ hin3
        simp only [spanOrder] at horder
        have horder2 : s₁ < s₂ + n₂.fullBytes.length := horder
        have hdisj2 : s₁ + n₁.fullBytes.length ≤ s₂ ∨
            s₂ + n₂.fullBytes.length ≤ s₁ := hdisj
        have h2f : 2 ≤ n₁.fullBytes.length := hb1.2.2
        omega

set_option maxHeartbeats 1600000 in
theorem c3_tag_selector_witness :
    findFirstByTag (rootOf twoIntBytes) 0x02 = some twoIntFst ∧ (2 : Nat) < 5 := by
  have hwf : wfNodeB (rootOf twoIntBytes) = true :=
    synthRoot_wf twoIntBytes (topOf twoIntBytes) rfl
  have hch : (rootOf twoIntBytes).children = [twoIntSeq] := rfl
  have hspans : preSpans 0 (rootOf twoIntBytes).children
      = [(0, twoIntSeq), (2, twoIntFst), (5, twoIntSnd)] := by
    rw [hch]
    simp [preSpans, twoIntSeq, twoIntFst, twoIntSnd]
  have hfind : (preSpans 0 (rootOf twoIntBytes).children).find?
      (fun q => q.2.tagFirstOctet == 0x02) = some (2, twoIntFst) := by
    rw [hspans]
    rw [List.find?_cons_of_neg _ (by simp [twoIntSeq]),
      List.find?_cons_of_pos _ (by simp [twoIntFst])]
  have hmem : ((5 : Nat), twoIntSnd) ∈ preSpans 0 (rootOf twoIntBytes).children := by
    rw [hspans]
    exact List.Mem.tail _ (List.Mem.tail _ (List.Mem.head _))
  have hdisj : spanDisjoint (2, twoIntFst) (5, twoIntSnd) := by
    simp only [spanDisjoint]
    exact Or.inl (by simp [twoIntFst])
  exact c3_tag_selector.2.2.2 (rootOf twoIntBytes) 0x02 0 2 5 twoIntFst twoIntSnd
    hwf hfind hmem rfl hdisj

end AQN1
